import Mathlib

/-!
Verification of the orcha task-orchestration engine.

Shallow embedding of the orchestration core of the repository:

* `src/orchestrator/claude_executor.py` — dependency graph construction,
  topological sort (Kahn's algorithm) and the plan-execution loop.
* `src/orchestrator/hierarchical_agent.py` — recursive agent spawning with a
  depth bound, child-result aggregation, direct execution and result parsing.
* `src/orchestrator/hybrid_codex_claude_workflow.py` — the bounded
  implement/review/refine loop.
* `src/orchestrator/hybrid_orchestrator_v4_iterative.py` — the bounded
  dialogue execution loop.
* `src/orchestrator/chatgpt_planner.py` — cycle detection in plan validation.

External collaborators (LLM calls, subprocesses) are modelled as oracle
functions supplied to the embedded control flow; all state mutation of the
Python source is made explicit by state passing.  Python `while` loops are
modelled with an explicit fuel argument chosen large enough that, in the runs
the claims quantify over, the fuel never runs out before the loop's own exit
condition fires; this is noted at each definition.
-/

set_option autoImplicit false

namespace Orcha

/-! ## Dependency graphs (`claude_executor.py`)

`ExecutionPlan.dependencies` is a Python dict mapping a task id to the list of
task ids it depends on; we embed it as an association list with the dict's
key-uniqueness expressed where needed.  `plan.tasks` is embedded as the list
of its task ids (plus, later, the fields the execution loop reads). -/

/-- Lookup of a task's dependency list: `plan.dependencies.get(task_id, [])`.
A missing key yields the empty list, as in `_build_dependency_graph` where
tasks absent from the dict keep their initial `[]`. -/
def depsOf (dependencies : List (String × List String)) (t : String) : List String :=
  (dependencies.lookup t).getD []

/-- Embeds `ClaudeExecutor._build_dependency_graph` (claude_executor.py
lines 254-262): the graph has one entry per task of the plan, in plan order,
holding that task's dependency list; dict entries keyed by unknown ids are
dropped by the `if task_id in graph` guard. -/
def buildDependencyGraph (tasks : List String)
    (dependencies : List (String × List String)) : List (String × List String) :=
  tasks.map (fun t => (t, depsOf dependencies t))

/-- Embeds the inner `for tid, deps in dep_graph.items()` loop of
`_topological_sort` (claude_executor.py lines 293-298): after popping `t`,
every graph entry whose dependency list contains `t` has its in-degree
decremented, and entries whose in-degree reaches zero are appended (in graph
order) to the queue.  Returns the updated in-degree map and the list of newly
enqueued ids. -/
def processNode : List (String × List String) → (String → Int) → String →
    (String → Int) × List String
  | [], inDeg, _ => (inDeg, [])
  | p :: rest, inDeg, t =>
    if t ∈ p.2 then
      let d := inDeg p.1 - 1
      let r := processNode rest (Function.update inDeg p.1 d) t
      (r.1, (if d = 0 then [p.1] else []) ++ r.2)
    else
      processNode rest inDeg t

/-- Embeds the `while queue:` loop of `_topological_sort` (claude_executor.py
lines 288-300): pop the queue head, append it to the result, run
`processNode`, and append the newly zero-in-degree ids to the queue.  `fuel`
bounds the number of loop iterations; the source loop pops one element per
iteration and (for duplicate-free task lists) enqueues each task at most
once, so the caller's fuel of `tasks.length` is never exhausted before the
queue empties. -/
def kahnLoop (g : List (String × List String)) :
    Nat → (String → Int) → List String → List String → List String
  | 0, _, _, result => result
  | _ + 1, _, [], result => result
  | fuel + 1, inDeg, t :: rest, result =>
    let step := processNode g inDeg t
    kahnLoop g fuel step.1 (rest ++ step.2) (result ++ [t])

/-- Embeds `ClaudeExecutor._topological_sort` together with its call site
(claude_executor.py lines 100-103 and 264-300).  The in-degree dict ends up
mapping each task id to the length of its dependency list (the
`in_degree[dep] += 0` line of the source is a no-op), the queue is seeded
with the zero-in-degree tasks in plan order, and the Kahn loop runs until the
queue empties. -/
def topologicalSort (tasks : List String)
    (dependencies : List (String × List String)) : List String :=
  let g := buildDependencyGraph tasks dependencies
  let inDeg : String → Int := fun t => ((depsOf dependencies t).length : Int)
  let queue := tasks.filter (fun t => decide (inDeg t = 0))
  kahnLoop g tasks.length inDeg queue []

/-- A list of task ids respects the dependency map when every element's
dependencies all occur strictly before it in the list. -/
def respectsDeps (dependencies : List (String × List String))
    (l : List String) : Prop :=
  ∀ (i : Nat) (t : String), l[i]? = some t →
    ∀ d ∈ depsOf dependencies t, d ∈ l.take i

/-- Number of dependencies of `x` that do not yet occur in `result`; this is
the quantity the source's `in_degree[x]` tracks during the Kahn loop. -/
def unmet (dependencies : List (String × List String))
    (result : List String) (x : String) : Nat :=
  ((depsOf dependencies x).filter (fun d => decide (d ∉ result))).length

theorem unmet_nil (dependencies : List (String × List String)) (x : String) :
    unmet dependencies [] x = (depsOf dependencies x).length := by
  simp [unmet]

/-- A duplicate-free list whose members all equal `t` and that contains `t`
is the singleton `[t]`. -/
theorem eq_singleton_of_nodup_of_mem {m : List String} (hnd : m.Nodup) {t : String}
    (ht : t ∈ m) (hall : ∀ d ∈ m, d = t) : m = [t] := by
  cases m with
  | nil => cases ht
  | cons a m' =>
    have ha : a = t := hall a (List.mem_cons_self a m')
    subst ha
    have : m' = [] := by
      rw [List.eq_nil_iff_forall_not_mem]
      intro b hb
      have hb' : b = a := hall b (List.mem_cons_of_mem a hb)
      subst hb'
      exact (List.nodup_cons.mp hnd).1 hb
    rw [this]

/-- How appending the freshly processed task `t` to `result` changes the
unmet-dependency count of a task `x` with a duplicate-free dependency
list. -/
theorem unmet_snoc (dependencies : List (String × List String))
    (result : List String) (t x : String)
    (hnd : (depsOf dependencies x).Nodup) :
    (t ∈ depsOf dependencies x ∧ t ∉ result →
        1 ≤ unmet dependencies result x ∧
        unmet dependencies (result ++ [t]) x = unmet dependencies result x - 1) ∧
    (¬(t ∈ depsOf dependencies x ∧ t ∉ result) →
        unmet dependencies (result ++ [t]) x = unmet dependencies result x) := by
  have hsplit : unmet dependencies (result ++ [t]) x =
      (((depsOf dependencies x).filter (fun d => decide (d ∉ result))).filter
        (fun d => d != t)).length := by
    rw [unmet, List.filter_filter]
    congr 1
    apply List.filter_congr
    intro d _
    by_cases h1 : d ∈ result <;> by_cases h2 : d = t <;>
      simp [h1, h2, List.mem_append]
  constructor
  · rintro ⟨htx, htr⟩
    have hm : t ∈ (depsOf dependencies x).filter (fun d => decide (d ∉ result)) :=
      List.mem_filter.mpr ⟨htx, by simpa using htr⟩
    have hmnd : ((depsOf dependencies x).filter
        (fun d => decide (d ∉ result))).Nodup := hnd.filter _
    rw [hsplit, ← hmnd.erase_eq_filter t, List.length_erase_of_mem hm]
    exact ⟨List.length_pos.mpr (List.ne_nil_of_mem hm), rfl⟩
  · intro hneg
    rw [hsplit]
    unfold unmet
    congr 1
    rw [List.filter_eq_self]
    intro d hd
    rw [List.mem_filter] at hd
    have hd1 : d ∈ depsOf dependencies x := hd.1
    have hd2 : d ∉ result := by simpa using hd.2
    rcases not_and_or.mp hneg with h | h
    · simp [show d ≠ t from fun he => h (he ▸ hd1)]
    · simp [show d ≠ t from fun he => hd2 (he ▸ (not_not.mp h))]

/-- Effect of `processNode` on the in-degree map: on a graph with
duplicate-free keys, exactly the keys whose dependency list contains `t` are
decremented by one. -/
theorem processNode_fst (dependencies : List (String × List String))
    (ts : List String) (hnd : ts.Nodup) (inDeg : String → Int) (t x : String) :
    (processNode (ts.map fun s => (s, depsOf dependencies s)) inDeg t).1 x =
      if x ∈ ts ∧ t ∈ depsOf dependencies x then inDeg x - 1 else inDeg x := by
  induction ts generalizing inDeg with
  | nil => simp [processNode]
  | cons s ts ih =>
    rw [List.nodup_cons] at hnd
    obtain ⟨hs, hnd'⟩ := hnd
    by_cases hts : t ∈ depsOf dependencies s
    · simp only [List.map_cons, processNode, hts, if_true]
      rw [ih hnd']
      by_cases hx : x = s
      · subst hx
        simp [hs, hts, Function.update_same]
      · rw [Function.update_noteq hx]
        by_cases hmem : x ∈ ts ∧ t ∈ depsOf dependencies x
        · simp [hmem, List.mem_cons, hmem.1, hmem.2]
        · have hnc : ¬(x ∈ s :: ts ∧ t ∈ depsOf dependencies x) := by
            rintro ⟨hc, hdx⟩
            rcases List.mem_cons.mp hc with h | h
            · exact hx h
            · exact hmem ⟨h, hdx⟩
          rw [if_neg hmem, if_neg hnc]
    · simp only [List.map_cons, processNode, hts, if_false]
      rw [ih hnd']
      by_cases hmem : x ∈ ts ∧ t ∈ depsOf dependencies x
      · simp [hmem, List.mem_cons, hmem.1, hmem.2]
      · have hnc : ¬(x ∈ s :: ts ∧ t ∈ depsOf dependencies x) := by
          rintro ⟨hc, hdx⟩
          rcases List.mem_cons.mp hc with h | h
          · exact hts (h ▸ hdx)
          · exact hmem ⟨h, hdx⟩
        rw [if_neg hmem, if_neg hnc]

/-- Effect of `processNode` on the queue: on a graph with duplicate-free
keys the newly enqueued ids are exactly the keys (in graph order) whose
dependency list contains `t` and whose in-degree was 1 before the loop. -/
theorem processNode_snd (dependencies : List (String × List String))
    (ts : List String) (hnd : ts.Nodup) (inDeg : String → Int) (t : String) :
    (processNode (ts.map fun s => (s, depsOf dependencies s)) inDeg t).2 =
      ts.filter (fun x =>
        decide (t ∈ depsOf dependencies x) && decide (inDeg x = 1)) := by
  induction ts generalizing inDeg with
  | nil => simp [processNode]
  | cons s ts ih =>
    rw [List.nodup_cons] at hnd
    obtain ⟨hs, hnd'⟩ := hnd
    by_cases hts : t ∈ depsOf dependencies s
    · simp only [List.map_cons, processNode, hts, if_true]
      rw [ih hnd']
      have hfil : ts.filter (fun x => decide (t ∈ depsOf dependencies x) &&
            decide (Function.update inDeg s (inDeg s - 1) x = 1)) =
          ts.filter (fun x => decide (t ∈ depsOf dependencies x) &&
            decide (inDeg x = 1)) := by
        apply List.filter_congr
        intro x hx
        rw [Function.update_noteq (fun h => hs (by rw [← h]; exact hx))]
      rw [hfil]
      by_cases hd : inDeg s - 1 = 0
      · have h1 : inDeg s = 1 := by omega
        simp [List.filter_cons, hts, h1, hd]
      · have h1 : ¬ inDeg s = 1 := by omega
        simp [List.filter_cons, hts, h1, hd]
    · simp only [List.map_cons, processNode, hts, if_false]
      rw [ih hnd']
      simp [List.filter_cons, hts]

/-- Invariant-based correctness of the embedded Kahn loop.  The state
`(inDeg, queue, result)` satisfies: (i) fuel accounting, (ii) the processed
and queued ids are distinct, (iii) they are all tasks, (iv) `inDeg` counts
each task's dependencies not yet in `result`, (v) the queue holds exactly
the unprocessed tasks whose dependencies are all processed, and (vi) the
partial result already respects the dependency map.  Acyclicity of the
dependency map is expressed by a rank function that strictly decreases along
dependency edges. -/
theorem kahnLoop_spec
    (tasks : List String) (dependencies : List (String × List String))
    (htnd : tasks.Nodup)
    (hclosed : ∀ t ∈ tasks, ∀ d ∈ depsOf dependencies t, d ∈ tasks)
    (hdnd : ∀ t ∈ tasks, (depsOf dependencies t).Nodup)
    (rank : String → Nat)
    (hrank : ∀ t ∈ tasks, ∀ d ∈ depsOf dependencies t, rank d < rank t) :
    ∀ (fuel : Nat) (inDeg : String → Int) (queue result : List String),
      result.length + fuel = tasks.length →
      (result ++ queue).Nodup →
      (∀ x ∈ result ++ queue, x ∈ tasks) →
      (∀ x ∈ tasks, inDeg x = (unmet dependencies result x : Int)) →
      (∀ x ∈ tasks, x ∉ result →
        ((∀ d ∈ depsOf dependencies x, d ∈ result) ↔ x ∈ queue)) →
      respectsDeps dependencies result →
      (kahnLoop (buildDependencyGraph tasks dependencies)
          fuel inDeg queue result).Perm tasks ∧
      respectsDeps dependencies (kahnLoop (buildDependencyGraph tasks dependencies)
          fuel inDeg queue result) := by
  intro fuel
  induction fuel with
  | zero =>
    intro inDeg queue result hlen hnd hsub _ _ hord
    have hres : kahnLoop (buildDependencyGraph tasks dependencies)
        0 inDeg queue result = result := rfl
    rw [hres]
    refine ⟨?_, hord⟩
    have h1 : result.Nodup := (List.nodup_append.mp hnd).1
    have h2 : result ⊆ tasks := fun x hx => hsub x (List.mem_append_left _ hx)
    exact (h1.subperm h2).perm_of_length_le (by omega)
  | succ fuel ih =>
    intro inDeg queue result hlen hnd hsub hdeg hq hord
    cases queue with
    | nil =>
      have hres : kahnLoop (buildDependencyGraph tasks dependencies)
          (fuel + 1) inDeg [] result = result := rfl
      rw [hres]
      refine ⟨?_, hord⟩
      have hcomplete : ∀ n, ∀ x ∈ tasks, rank x < n → x ∈ result := by
        intro n
        induction n with
        | zero => intro x _ h; omega
        | succ n ihn =>
          intro x hx hxr
          by_contra hxres
          have hiff := hq x hx hxres
          simp only [List.not_mem_nil, iff_false, not_forall] at hiff
          obtain ⟨d, hd, hdres⟩ := hiff
          exact hdres (ihn d (hclosed x hx d hd)
            (by have := hrank x hx d hd; omega))
      have hall : tasks ⊆ result := fun x hx =>
        hcomplete (rank x + 1) x hx (Nat.lt_succ_self _)
      have h1 : result.Nodup := by simpa using hnd
      have h2 : result ⊆ tasks := fun x hx => hsub x (by simpa using hx)
      exact (h1.subperm h2).antisymm (htnd.subperm hall)
    | cons t rest =>
      have hgdef : buildDependencyGraph tasks dependencies =
          tasks.map fun s => (s, depsOf dependencies s) := rfl
      have hstep : kahnLoop (buildDependencyGraph tasks dependencies)
          (fuel + 1) inDeg (t :: rest) result =
        kahnLoop (buildDependencyGraph tasks dependencies) fuel
          (processNode (buildDependencyGraph tasks dependencies) inDeg t).1
          (rest ++ (processNode (buildDependencyGraph tasks dependencies) inDeg t).2)
          (result ++ [t]) := rfl
      rw [hstep]
      -- basic facts about the popped task `t`
      have htts : t ∈ tasks :=
        hsub t (List.mem_append_right _ (List.mem_cons_self t rest))
      have hdisj : result.Disjoint (t :: rest) := (List.nodup_append.mp hnd).2.2
      have htnres : t ∉ result := fun h => hdisj h (List.mem_cons_self t rest)
      have hdepst : ∀ d ∈ depsOf dependencies t, d ∈ result :=
        (hq t htts htnres).mpr (List.mem_cons_self t rest)
      -- characterise the processNode step
      have hfst : ∀ x ∈ tasks,
          (processNode (buildDependencyGraph tasks dependencies) inDeg t).1 x =
            if t ∈ depsOf dependencies x then inDeg x - 1 else inDeg x := by
        intro x hx
        rw [hgdef, processNode_fst dependencies tasks htnd]
        by_cases h : t ∈ depsOf dependencies x
        · rw [if_pos ⟨hx, h⟩, if_pos h]
        · rw [if_neg (fun hc => h hc.2), if_neg h]
      have hsnd : (processNode (buildDependencyGraph tasks dependencies) inDeg t).2 =
          tasks.filter (fun x =>
            decide (t ∈ depsOf dependencies x) && decide (inDeg x = 1)) := by
        rw [hgdef, processNode_snd dependencies tasks htnd]
      have hmem_newly : ∀ x,
          x ∈ (processNode (buildDependencyGraph tasks dependencies) inDeg t).2 ↔
            x ∈ tasks ∧ t ∈ depsOf dependencies x ∧
              unmet dependencies result x = 1 := by
        intro x
        rw [hsnd, List.mem_filter]
        constructor
        · rintro ⟨hx, hb⟩
          simp only [Bool.and_eq_true, decide_eq_true_eq] at hb
          refine ⟨hx, hb.1, ?_⟩
          have := hdeg x hx
          omega
        · rintro ⟨hx, hdx, hu⟩
          refine ⟨hx, ?_⟩
          simp only [Bool.and_eq_true, decide_eq_true_eq]
          refine ⟨hdx, ?_⟩
          have := hdeg x hx
          omega
      -- a task in the queue or in the result cannot have the unprocessed `t`
      -- among its dependencies
      have hnot_result : ∀ x ∈ result, t ∉ depsOf dependencies x := by
        intro x hx htx
        obtain ⟨i, hi⟩ := List.mem_iff_getElem?.mp hx
        exact htnres (List.take_subset i result (hord i x hi t htx))
      have hnot_queue : ∀ x ∈ t :: rest, t ∈ depsOf dependencies x → False := by
        intro x hxq htx
        have hxts : x ∈ tasks := hsub x (List.mem_append_right _ hxq)
        have hxnres : x ∉ result := fun h => hdisj h hxq
        exact htnres ((hq x hxts hxnres).mpr hxq t htx)
      -- the new state satisfies all the invariants
      apply ih
      -- (i) fuel accounting
      · simp only [List.length_append, List.length_singleton]
        omega
      -- (ii) distinctness
      · have hperm : (result ++ [t]) ++ (rest ++
            (processNode (buildDependencyGraph tasks dependencies) inDeg t).2) =
            (result ++ t :: rest) ++
            (processNode (buildDependencyGraph tasks dependencies) inDeg t).2 := by
          simp
        rw [hperm, List.nodup_append]
        refine ⟨hnd, ?_, ?_⟩
        · rw [hsnd]
          exact htnd.filter _
        · intro x hx hx'
          rw [hmem_newly] at hx'
          obtain ⟨hxts, htx, hu⟩ := hx'
          rcases List.mem_append.mp hx with h | h
          · exact hnot_result x h htx
          · exact hnot_queue x h htx
      -- (iii) everything is a task
      · intro x hx
        rcases List.mem_append.mp hx with h | h
        · rcases List.mem_append.mp h with h' | h'
          · exact hsub x (List.mem_append_left _ h')
          · rw [List.mem_singleton] at h'
            exact h' ▸ htts
        · rcases List.mem_append.mp h with h' | h'
          · exact hsub x (List.mem_append_right _ (List.mem_cons_of_mem t h'))
          · exact ((hmem_newly x).mp h').1
      -- (iv) in-degree counts unmet dependencies
      · intro x hx
        rw [hfst x hx]
        have hsn := unmet_snoc dependencies result t x (hdnd x hx)
        by_cases htx : t ∈ depsOf dependencies x
        · obtain ⟨h1, h2⟩ := hsn.1 ⟨htx, htnres⟩
          rw [if_pos htx, hdeg x hx, h2]
          omega
        · rw [if_neg htx, hdeg x hx, hsn.2 (fun hc => htx hc.1)]
      -- (v) queue characterisation
      · intro x hx hxnres'
        have hxne : x ≠ t := fun h => hxnres' (by
          rw [h]; exact List.mem_append_right _ (List.mem_singleton_self t))
        have hxnres : x ∉ result := fun h => hxnres' (List.mem_append_left _ h)
        constructor
        · intro hdall
          by_cases htx : t ∈ depsOf dependencies x
          · refine List.mem_append_right _ ((hmem_newly x).mpr ⟨hx, htx, ?_⟩)
            -- every unmet dependency of x equals t, so the unmet count is 1
            have hall : ∀ d ∈ (depsOf dependencies x).filter
                (fun d => decide (d ∉ result)), d = t := by
              intro d hd
              rw [List.mem_filter] at hd
              have hd2 : d ∉ result := by simpa using hd.2
              rcases List.mem_append.mp (hdall d hd.1) with h | h
              · exact absurd h hd2
              · exact List.mem_singleton.mp h
            have htm : t ∈ (depsOf dependencies x).filter
                (fun d => decide (d ∉ result)) :=
              List.mem_filter.mpr ⟨htx, by simpa using htnres⟩
            have := eq_singleton_of_nodup_of_mem ((hdnd x hx).filter _) htm hall
            rw [unmet, this, List.length_singleton]
          · refine List.mem_append_left _ ?_
            have hdall' : ∀ d ∈ depsOf dependencies x, d ∈ result := by
              intro d hd
              rcases List.mem_append.mp (hdall d hd) with h | h
              · exact h
              · exact absurd (List.mem_singleton.mp h ▸ hd) htx
            have := (hq x hx hxnres).mp hdall'
            rcases List.mem_cons.mp this with h | h
            · exact absurd h hxne
            · exact h
        · intro hxq d hd
          rcases List.mem_append.mp hxq with h | h
          · exact List.mem_append_left _
              ((hq x hx hxnres).mpr (List.mem_cons_of_mem t h) d hd)
          · obtain ⟨_, htx, hu⟩ := (hmem_newly x).mp h
            by_cases hdres : d ∈ result
            · exact List.mem_append_left _ hdres
            · -- the single unmet dependency of x is t
              have hdm : d ∈ (depsOf dependencies x).filter
                  (fun d => decide (d ∉ result)) :=
                List.mem_filter.mpr ⟨hd, by simpa using hdres⟩
              obtain ⟨a, ha⟩ := List.length_eq_one.mp hu
              have htm : t ∈ (depsOf dependencies x).filter
                  (fun d => decide (d ∉ result)) :=
                List.mem_filter.mpr ⟨htx, by simpa using htnres⟩
              rw [ha, List.mem_singleton] at hdm htm
              rw [hdm, ← htm]
              exact List.mem_append_right _ (List.mem_singleton_self t)
      -- (vi) the extended result respects the dependency map
      · intro i x hix d hd
        rcases Nat.lt_trichotomy i result.length with hlt | heq | hgt
        · rw [List.getElem?_append_left hlt] at hix
          rw [List.take_append_of_le_length (Nat.le_of_lt hlt)]
          exact hord i x hix d hd
        · subst heq
          rw [List.getElem?_concat_length] at hix
          have hxt : x = t := (Option.some.inj hix).symm
          subst hxt
          rw [List.take_left]
          exact hdepst d hd
        · rw [List.getElem?_eq_none (by simp; omega)] at hix
          cases hix

/-- C1: for every plan whose dependency map describes a valid DAG over the
plan's tasks — the task ids are distinct, every dependency id names an
existing task, each task's dependency list is duplicate-free (a dependency
map describing a DAG lists each edge once), and a rank function witnesses
acyclicity (for finite graphs, such a rank exists exactly when there is no
cycle) — the list returned by the coordinator's topological sort contains
each task id exactly once (it is a permutation of the task-id list) and
places every task after all of the tasks it depends on. -/
theorem topologicalSort_perm_respectsDeps
    (tasks : List String) (dependencies : List (String × List String))
    (htnd : tasks.Nodup)
    (hclosed : ∀ t ∈ tasks, ∀ d ∈ depsOf dependencies t, d ∈ tasks)
    (hdnd : ∀ t ∈ tasks, (depsOf dependencies t).Nodup)
    (rank : String → Nat)
    (hrank : ∀ t ∈ tasks, ∀ d ∈ depsOf dependencies t, rank d < rank t) :
    (topologicalSort tasks dependencies).Perm tasks ∧
      respectsDeps dependencies (topologicalSort tasks dependencies) := by
  have h := kahnLoop_spec tasks dependencies htnd hclosed hdnd rank hrank
    tasks.length (fun t => ((depsOf dependencies t).length : Int))
    (tasks.filter (fun t =>
      decide (((depsOf dependencies t).length : Int) = 0))) []
    (by simp)
    (by simpa using htnd.filter _)
    (by
      intro x hx
      simp only [List.nil_append] at hx
      exact List.mem_of_mem_filter hx)
    (by
      intro x _
      rw [unmet_nil])
    (by
      intro x hx _
      constructor
      · intro hall
        refine List.mem_filter.mpr ⟨hx, ?_⟩
        have hdep : depsOf dependencies x = [] :=
          List.eq_nil_iff_forall_not_mem.mpr
            (fun d hd => absurd (hall d hd) (List.not_mem_nil d))
        simp [hdep]
      · intro hmem d hd
        have h0 := (List.mem_filter.mp hmem).2
        simp only [decide_eq_true_eq] at h0
        have hlen0 : (depsOf dependencies x).length = 0 := by exact_mod_cast h0
        rw [List.length_eq_zero] at hlen0
        rw [hlen0] at hd
        exact absurd hd (List.not_mem_nil d))
    (by
      intro i t hi
      simp at hi)
  exact h

/-- Witness for `topologicalSort_perm_respectsDeps` on the concrete plan with
tasks build, test, deploy where test depends on build and deploy on both. -/
theorem topologicalSort_perm_respectsDeps_witness :
    (["build", "test", "deploy"].Nodup ∧
      (∀ t ∈ ["build", "test", "deploy"],
        ∀ d ∈ depsOf [("test", ["build"]), ("deploy", ["build", "test"])] t,
          d ∈ ["build", "test", "deploy"]) ∧
      (∀ t ∈ ["build", "test", "deploy"],
        (depsOf [("test", ["build"]), ("deploy", ["build", "test"])] t).Nodup) ∧
      (∀ t ∈ ["build", "test", "deploy"],
        ∀ d ∈ depsOf [("test", ["build"]), ("deploy", ["build", "test"])] t,
          (fun s => if s = "build" then 0 else if s = "test" then 1 else 2) d <
          (fun s => if s = "build" then 0 else if s = "test" then 1 else 2) t)) ∧
    ((topologicalSort ["build", "test", "deploy"]
        [("test", ["build"]), ("deploy", ["build", "test"])]).Perm
        ["build", "test", "deploy"] ∧
      respectsDeps [("test", ["build"]), ("deploy", ["build", "test"])]
        (topologicalSort ["build", "test", "deploy"]
          [("test", ["build"]), ("deploy", ["build", "test"])])) :=
  ⟨⟨by decide, by decide, by decide, by decide⟩,
    topologicalSort_perm_respectsDeps
      ["build", "test", "deploy"]
      [("test", ["build"]), ("deploy", ["build", "test"])]
      (by decide) (by decide) (by decide)
      (fun s => if s = "build" then 0 else if s = "test" then 1 else 2)
      (by decide)⟩

/-! ## Plan execution (`claude_executor.py` lines 112-190) -/

/-- The fields of a plan task dict that the `execute_plan` loop itself
reads; the remaining fields (description, acceptance criteria, ...) are only
forwarded to the executor collaborator. -/
structure TaskDef where
  task_id : String
  agent : String
  priority : String
  deriving Repr, DecidableEq

/-- State threaded through the `for task_id in task_order:` loop of
`execute_plan`: the rows appended to `execution_result.task_results` (as
task-id/status pairs), the `completed_tasks` set, and — instrumenting the
collaborator boundary — the ids passed to `_execute_single_task`. -/
structure ExecState where
  results : List (String × String)
  completed : List String
  dispatched : List String
  deriving Repr, DecidableEq

/-- Models `next((t for t in plan.tasks if t["task_id"] == task_id), None)`
(claude_executor.py line 117). -/
def findTask (taskDefs : List TaskDef) (tid : String) : Option TaskDef :=
  taskDefs.find? (fun t => t.task_id == tid)

/-- Embeds the task loop of `ClaudeExecutor.execute_plan` (claude_executor.py
lines 112-165).  `execOutcome` is the executor collaborator: `true` means
`_execute_single_task` returned status "success".  An id missing from the
plan is passed over without a report row; a task with a dependency outside
`completed_tasks` is recorded "skipped" and not dispatched; a dispatched
task is recorded "success"/"failed", only successes enter `completed_tasks`,
and a failed task whose priority is "critical" breaks the loop.  Timestamps,
counters, callbacks and printing are omitted. -/
def execPlanLoop (taskDefs : List TaskDef)
    (dependencies : List (String × List String)) (execOutcome : String → Bool) :
    List String → ExecState → ExecState
  | [], st => st
  | tid :: rest, st =>
    match findTask taskDefs tid with
    | none => execPlanLoop taskDefs dependencies execOutcome rest st
    | some td =>
      if ∀ d ∈ depsOf dependencies tid, d ∈ st.completed then
        let ok := execOutcome tid
        let st' : ExecState :=
          { results := st.results ++ [(tid, if ok then "success" else "failed")]
            completed := if ok then st.completed ++ [tid] else st.completed
            dispatched := st.dispatched ++ [tid] }
        if ok then execPlanLoop taskDefs dependencies execOutcome rest st'
        else if td.priority = "critical" then st'
        else execPlanLoop taskDefs dependencies execOutcome rest st'
      else
        execPlanLoop taskDefs dependencies execOutcome rest
          { st with results := st.results ++ [(tid, "skipped")] }

/-- Runs the `execute_plan` loop from the initial state (empty report, empty
`completed_tasks`). -/
def executePlan (taskDefs : List TaskDef)
    (dependencies : List (String × List String)) (execOutcome : String → Bool)
    (order : List String) : ExecState :=
  execPlanLoop taskDefs dependencies execOutcome order ⟨[], [], []⟩

/-- In a report with duplicate-free keys, a task id determines its recorded
status. -/
theorem nodup_keys_val_unique {l : List (String × String)}
    (h : (l.map Prod.fst).Nodup) {a b c : String}
    (h1 : (a, b) ∈ l) (h2 : (a, c) ∈ l) : b = c := by
  induction l with
  | nil => cases h1
  | cons p l ih =>
    rw [List.map_cons, List.nodup_cons] at h
    rcases List.mem_cons.mp h1 with e1 | m1 <;> rcases List.mem_cons.mp h2 with e2 | m2
    · exact (Prod.ext_iff.mp (e1.trans e2.symm)).2
    · exact absurd (by rw [← e1]; exact List.mem_map.mpr ⟨(a, c), m2, rfl⟩) h.1
    · exact absurd (by rw [← e2]; exact List.mem_map.mpr ⟨(a, b), m1, rfl⟩) h.1
    · exact ih h.2 m1 m2

section ExecPlanLemmas

variable (taskDefs : List TaskDef) (dependencies : List (String × List String))
  (execOutcome : String → Bool)

/-- One-step unfolding: an id missing from the plan is passed over. -/
theorem execPlanLoop_cons_none {tid : String} (rest : List String) (st : ExecState)
    (hft : findTask taskDefs tid = none) :
    execPlanLoop taskDefs dependencies execOutcome (tid :: rest) st =
      execPlanLoop taskDefs dependencies execOutcome rest st := by
  simp [execPlanLoop, hft]

/-- One-step unfolding: an unmet dependency records "skipped". -/
theorem execPlanLoop_cons_skip {tid : String} {td : TaskDef} (rest : List String)
    (st : ExecState) (hft : findTask taskDefs tid = some td)
    (hdep : ¬ ∀ d ∈ depsOf dependencies tid, d ∈ st.completed) :
    execPlanLoop taskDefs dependencies execOutcome (tid :: rest) st =
      execPlanLoop taskDefs dependencies execOutcome rest
        ⟨st.results ++ [(tid, "skipped")], st.completed, st.dispatched⟩ := by
  simp only [execPlanLoop, hft]
  rw [if_neg hdep]

/-- One-step unfolding: a dispatched, successful task records "success" and
enters `completed_tasks`. -/
theorem execPlanLoop_cons_success {tid : String} {td : TaskDef} (rest : List String)
    (st : ExecState) (hft : findTask taskDefs tid = some td)
    (hdep : ∀ d ∈ depsOf dependencies tid, d ∈ st.completed)
    (hok : execOutcome tid = true) :
    execPlanLoop taskDefs dependencies execOutcome (tid :: rest) st =
      execPlanLoop taskDefs dependencies execOutcome rest
        ⟨st.results ++ [(tid, "success")], st.completed ++ [tid],
          st.dispatched ++ [tid]⟩ := by
  simp only [execPlanLoop, hft]
  rw [if_pos hdep]
  simp [hok]

/-- One-step unfolding: a dispatched, failed, non-critical task records
"failed" and execution continues. -/
theorem execPlanLoop_cons_fail {tid : String} {td : TaskDef} (rest : List String)
    (st : ExecState) (hft : findTask taskDefs tid = some td)
    (hdep : ∀ d ∈ depsOf dependencies tid, d ∈ st.completed)
    (hok : execOutcome tid = false) (hcrit : ¬ td.priority = "critical") :
    execPlanLoop taskDefs dependencies execOutcome (tid :: rest) st =
      execPlanLoop taskDefs dependencies execOutcome rest
        ⟨st.results ++ [(tid, "failed")], st.completed, st.dispatched ++ [tid]⟩ := by
  simp only [execPlanLoop, hft]
  rw [if_pos hdep]
  simp [hok, hcrit]

/-- One-step unfolding: a dispatched, failed, critical task records "failed"
and the loop breaks immediately. -/
theorem execPlanLoop_cons_halt {tid : String} {td : TaskDef} (rest : List String)
    (st : ExecState) (hft : findTask taskDefs tid = some td)
    (hdep : ∀ d ∈ depsOf dependencies tid, d ∈ st.completed)
    (hok : execOutcome tid = false) (hcrit : td.priority = "critical") :
    execPlanLoop taskDefs dependencies execOutcome (tid :: rest) st =
      ⟨st.results ++ [(tid, "failed")], st.completed, st.dispatched ++ [tid]⟩ := by
  simp only [execPlanLoop, hft]
  rw [if_pos hdep]
  simp [hok, hcrit]

/-- Report rows are only ever appended by the execution loop. -/
theorem execPlanLoop_results_mono :
    ∀ (order : List String) (st : ExecState) (r : String × String),
      r ∈ st.results →
      r ∈ (execPlanLoop taskDefs dependencies execOutcome order st).results := by
  intro order
  induction order with
  | nil => intro st r hr; exact hr
  | cons tid rest ih =>
    intro st r hr
    cases hft : findTask taskDefs tid with
    | none =>
      rw [execPlanLoop_cons_none _ _ _ rest st hft]
      exact ih st r hr
    | some td =>
      by_cases hdep : ∀ d ∈ depsOf dependencies tid, d ∈ st.completed
      · cases hok : execOutcome tid with
        | true =>
          rw [execPlanLoop_cons_success _ _ _ rest st hft hdep hok]
          exact ih _ r (List.mem_append_left _ hr)
        | false =>
          by_cases hcrit : td.priority = "critical"
          · rw [execPlanLoop_cons_halt _ _ _ rest st hft hdep hok hcrit]
            exact List.mem_append_left _ hr
          · rw [execPlanLoop_cons_fail _ _ _ rest st hft hdep hok hcrit]
            exact ih _ r (List.mem_append_left _ hr)
      · rw [execPlanLoop_cons_skip _ _ _ rest st hft hdep]
        exact ih _ r (List.mem_append_left _ hr)

/-- Dispatched ids are only ever appended by the execution loop. -/
theorem execPlanLoop_dispatched_mono :
    ∀ (order : List String) (st : ExecState) (x : String),
      x ∈ st.dispatched →
      x ∈ (execPlanLoop taskDefs dependencies execOutcome order st).dispatched := by
  intro order
  induction order with
  | nil => intro st x hx; exact hx
  | cons tid rest ih =>
    intro st x hx
    cases hft : findTask taskDefs tid with
    | none =>
      rw [execPlanLoop_cons_none _ _ _ rest st hft]
      exact ih st x hx
    | some td =>
      by_cases hdep : ∀ d ∈ depsOf dependencies tid, d ∈ st.completed
      · cases hok : execOutcome tid with
        | true =>
          rw [execPlanLoop_cons_success _ _ _ rest st hft hdep hok]
          exact ih _ x (List.mem_append_left _ hx)
        | false =>
          by_cases hcrit : td.priority = "critical"
          · rw [execPlanLoop_cons_halt _ _ _ rest st hft hdep hok hcrit]
            exact List.mem_append_left _ hx
          · rw [execPlanLoop_cons_fail _ _ _ rest st hft hdep hok hcrit]
            exact ih _ x (List.mem_append_left _ hx)
      · rw [execPlanLoop_cons_skip _ _ _ rest st hft hdep]
        exact ih _ x hx

/-- A task is dispatched only when each of its dependencies already carries a
"success" row: either it was dispatched before the loop started, or every
one of its dependencies is recorded "success" in the final report. -/
theorem execPlanLoop_dispatch_sound :
    ∀ (order : List String) (st : ExecState),
      (∀ x ∈ st.completed, (x, "success") ∈ st.results) →
      ∀ x, x ∈ (execPlanLoop taskDefs dependencies execOutcome order st).dispatched →
        x ∈ st.dispatched ∨
        ∀ d ∈ depsOf dependencies x,
          (d, "success") ∈
            (execPlanLoop taskDefs dependencies execOutcome order st).results := by
  intro order
  induction order with
  | nil => intro st _ x hx; exact Or.inl hx
  | cons tid rest ih =>
    intro st hK1 x hx
    cases hft : findTask taskDefs tid with
    | none =>
      rw [execPlanLoop_cons_none _ _ _ rest st hft] at hx ⊢
      exact ih st hK1 x hx
    | some td =>
      by_cases hdep : ∀ d ∈ depsOf dependencies tid, d ∈ st.completed
      · cases hok : execOutcome tid with
        | true =>
          rw [execPlanLoop_cons_success _ _ _ rest st hft hdep hok] at hx ⊢
          have hK1' : ∀ y ∈ st.completed ++ [tid],
              (y, "success") ∈ st.results ++ [(tid, "success")] := by
            intro y hy
            rcases List.mem_append.mp hy with h | h
            · exact List.mem_append_left _ (hK1 y h)
            · rw [List.mem_singleton] at h
              exact h ▸ List.mem_append_right _ (List.mem_singleton_self _)
          rcases ih _ hK1' x hx with h | h
          · rcases List.mem_append.mp h with h' | h'
            · exact Or.inl h'
            · rw [List.mem_singleton] at h'
              subst h'
              refine Or.inr (fun d hd => ?_)
              exact execPlanLoop_results_mono taskDefs dependencies execOutcome
                rest _ _ (List.mem_append_left _ (hK1 d (hdep d hd)))
          · exact Or.inr h
        | false =>
          by_cases hcrit : td.priority = "critical"
          · rw [execPlanLoop_cons_halt _ _ _ rest st hft hdep hok hcrit] at hx ⊢
            rcases List.mem_append.mp hx with h' | h'
            · exact Or.inl h'
            · rw [List.mem_singleton] at h'
              subst h'
              exact Or.inr (fun d hd =>
                List.mem_append_left _ (hK1 d (hdep d hd)))
          · rw [execPlanLoop_cons_fail _ _ _ rest st hft hdep hok hcrit] at hx ⊢
            have hK1' : ∀ y ∈ st.completed,
                (y, "success") ∈ st.results ++ [(tid, "failed")] :=
              fun y hy => List.mem_append_left _ (hK1 y hy)
            rcases ih _ hK1' x hx with h | h
            · rcases List.mem_append.mp h with h' | h'
              · exact Or.inl h'
              · rw [List.mem_singleton] at h'
                subst h'
                refine Or.inr (fun d hd => ?_)
                exact execPlanLoop_results_mono taskDefs dependencies execOutcome
                  rest _ _ (List.mem_append_left _ (hK1 d (hdep d hd)))
            · exact Or.inr h
      · rw [execPlanLoop_cons_skip _ _ _ rest st hft hdep] at hx ⊢
        have hK1' : ∀ y ∈ st.completed,
            (y, "success") ∈ st.results ++ [(tid, "skipped")] :=
          fun y hy => List.mem_append_left _ (hK1 y hy)
        exact ih _ hK1' x hx

/-- Every report row either predates the loop, carries status "skipped", or
belongs to a dispatched task. -/
theorem execPlanLoop_status_source :
    ∀ (order : List String) (st : ExecState) (x s : String),
      (x, s) ∈ (execPlanLoop taskDefs dependencies execOutcome order st).results →
      (x, s) ∈ st.results ∨ s = "skipped" ∨
        x ∈ (execPlanLoop taskDefs dependencies execOutcome order st).dispatched := by
  intro order
  induction order with
  | nil => intro st x s hx; exact Or.inl hx
  | cons tid rest ih =>
    intro st x s hx
    cases hft : findTask taskDefs tid with
    | none =>
      rw [execPlanLoop_cons_none _ _ _ rest st hft] at hx ⊢
      exact ih st x s hx
    | some td =>
      by_cases hdep : ∀ d ∈ depsOf dependencies tid, d ∈ st.completed
      · cases hok : execOutcome tid with
        | true =>
          rw [execPlanLoop_cons_success _ _ _ rest st hft hdep hok] at hx ⊢
          rcases ih _ x s hx with h | h | h
          · rcases List.mem_append.mp h with h' | h'
            · exact Or.inl h'
            · rw [List.mem_singleton, Prod.mk.injEq] at h'
              refine Or.inr (Or.inr ?_)
              rw [h'.1]
              exact execPlanLoop_dispatched_mono taskDefs dependencies execOutcome
                rest _ _ (List.mem_append_right _ (List.mem_singleton_self _))
          · exact Or.inr (Or.inl h)
          · exact Or.inr (Or.inr h)
        | false =>
          by_cases hcrit : td.priority = "critical"
          · rw [execPlanLoop_cons_halt _ _ _ rest st hft hdep hok hcrit] at hx ⊢
            rcases List.mem_append.mp hx with h' | h'
            · exact Or.inl h'
            · rw [List.mem_singleton, Prod.mk.injEq] at h'
              refine Or.inr (Or.inr ?_)
              rw [h'.1]
              exact List.mem_append_right _ (List.mem_singleton_self _)
          · rw [execPlanLoop_cons_fail _ _ _ rest st hft hdep hok hcrit] at hx ⊢
            rcases ih _ x s hx with h | h | h
            · rcases List.mem_append.mp h with h' | h'
              · exact Or.inl h'
              · rw [List.mem_singleton, Prod.mk.injEq] at h'
                refine Or.inr (Or.inr ?_)
                rw [h'.1]
                exact execPlanLoop_dispatched_mono taskDefs dependencies execOutcome
                  rest _ _ (List.mem_append_right _ (List.mem_singleton_self _))
            · exact Or.inr (Or.inl h)
            · exact Or.inr (Or.inr h)
      · rw [execPlanLoop_cons_skip _ _ _ rest st hft hdep] at hx ⊢
        rcases ih _ x s hx with h | h | h
        · rcases List.mem_append.mp h with h' | h'
          · exact Or.inl h'
          · rw [List.mem_singleton, Prod.mk.injEq] at h'
            exact Or.inr (Or.inl h'.2)
        · exact Or.inr (Or.inl h)
        · exact Or.inr (Or.inr h)

/-- An order without duplicate ids produces a report without duplicate
keys. -/
theorem execPlanLoop_keys_nodup :
    ∀ (order : List String) (st : ExecState), order.Nodup →
      (∀ x ∈ order, x ∉ st.results.map Prod.fst) →
      (st.results.map Prod.fst).Nodup →
      ((execPlanLoop taskDefs dependencies execOutcome order st).results.map
        Prod.fst).Nodup := by
  intro order
  induction order with
  | nil => intro st _ _ h; exact h
  | cons tid rest ih =>
    intro st hnd hfresh hkeys
    rw [List.nodup_cons] at hnd
    have hkeys' : ∀ s0 : String,
        ((st.results ++ [(tid, s0)]).map Prod.fst).Nodup := by
      intro s0
      rw [List.map_append, List.nodup_append]
      refine ⟨hkeys, List.nodup_singleton _, ?_⟩
      intro y hy hy'
      rw [List.map_singleton, List.mem_singleton] at hy'
      subst hy'
      exact hfresh y (List.mem_cons_self _ _) hy
    have hfresh' : ∀ s0 : String, ∀ x ∈ rest,
        x ∉ (st.results ++ [(tid, s0)]).map Prod.fst := by
      intro s0 x hx hx'
      rw [List.map_append] at hx'
      rcases List.mem_append.mp hx' with h | h
      · exact hfresh x (List.mem_cons_of_mem _ hx) h
      · rw [List.map_singleton, List.mem_singleton] at h
        have : x = tid := h
        exact hnd.1 (this ▸ hx)
    cases hft : findTask taskDefs tid with
    | none =>
      rw [execPlanLoop_cons_none _ _ _ rest st hft]
      exact ih st hnd.2 (fun x hx => hfresh x (List.mem_cons_of_mem _ hx)) hkeys
    | some td =>
      by_cases hdep : ∀ d ∈ depsOf dependencies tid, d ∈ st.completed
      · cases hok : execOutcome tid with
        | true =>
          rw [execPlanLoop_cons_success _ _ _ rest st hft hdep hok]
          exact ih _ hnd.2 ( hfresh' "success") ( hkeys' "success")
        | false =>
          by_cases hcrit : td.priority = "critical"
          · rw [execPlanLoop_cons_halt _ _ _ rest st hft hdep hok hcrit]
            exact hkeys' "failed"
          · rw [execPlanLoop_cons_fail _ _ _ rest st hft hdep hok hcrit]
            exact ih _ hnd.2 ( hfresh' "failed") ( hkeys' "failed")
      · rw [execPlanLoop_cons_skip _ _ _ rest st hft hdep]
        exact ih _ hnd.2 ( hfresh' "skipped") ( hkeys' "skipped")

end ExecPlanLemmas

/-- C2 (amended): during plan execution over a duplicate-free order, if a
task `A` is recorded with a terminal status other than "success" (i.e.
"failed" or "skipped") and task `B` lists `A` among its dependencies, then
`B` is never dispatched to the executor, and any terminal status recorded
for `B` is "skipped" — in particular `B` never ends "success".  Because the
statement applies to every such pair, the skip marking propagates
transitively to `B`'s own dependents.  (When a critical failure halts the
run early, `B` may receive no report row at all; see the counterexample.) -/
theorem executePlan_skip_propagation
    (taskDefs : List TaskDef) (dependencies : List (String × List String))
    (execOutcome : String → Bool) (order : List String) (hnd : order.Nodup)
    (A B sA : String) (hAB : A ∈ depsOf dependencies B)
    (hA : (A, sA) ∈ (executePlan taskDefs dependencies execOutcome order).results)
    (hsA : sA ≠ "success") :
    B ∉ (executePlan taskDefs dependencies execOutcome order).dispatched ∧
      ∀ sB, (B, sB) ∈ (executePlan taskDefs dependencies execOutcome order).results →
        sB = "skipped" := by
  have hkeys : ((executePlan taskDefs dependencies execOutcome order).results.map
      Prod.fst).Nodup := by
    apply execPlanLoop_keys_nodup taskDefs dependencies execOutcome order _ hnd
    · intro x _ hx
      simp at hx
    · simp
  have hAnots : (A, "success") ∉
      (executePlan taskDefs dependencies execOutcome order).results := by
    intro hcon
    exact hsA (nodup_keys_val_unique hkeys hA hcon)
  have hBnd : B ∉ (executePlan taskDefs dependencies execOutcome order).dispatched := by
    intro hB
    rcases execPlanLoop_dispatch_sound taskDefs dependencies execOutcome order _
      (by intro x hx; simp at hx) B hB with h | h
    · simp at h
    · exact hAnots (h A hAB)
  refine ⟨hBnd, fun sB hsB => ?_⟩
  rcases execPlanLoop_status_source taskDefs dependencies execOutcome order _
    B sB hsB with h | h | h
  · simp at h
  · exact h
  · exact absurd h hBnd

/-- Counterexample to C2 as stated: with tasks `A` (critical, fails) and `B`
(depends on `A`) executed in the topological order `[A, B]`, task `A` is
recorded "failed" and the loop halts, so `B` — whose terminal status the
claim requires to be "skipped" — receives no terminal status at all: the
final report is exactly `[("A", "failed")]`. -/
theorem executePlan_skip_counterexample :
    "A" ∈ depsOf [("B", ["A"])] "B" ∧
    (executePlan [⟨"A", "CODE", "critical"⟩, ⟨"B", "CODE", "medium"⟩]
        [("B", ["A"])] (fun _ => false) ["A", "B"]).results = [("A", "failed")] ∧
    ("B", "skipped") ∉
      (executePlan [⟨"A", "CODE", "critical"⟩, ⟨"B", "CODE", "medium"⟩]
        [("B", ["A"])] (fun _ => false) ["A", "B"]).results := by
  refine ⟨by decide, by decide, by decide⟩

/-- Witness for `executePlan_skip_propagation`: three tasks where `B` depends
on the failing non-critical task `A` and `C` depends on `B`; the run records
`A` "failed" and both `B` and `C` "skipped". -/
theorem executePlan_skip_propagation_witness :
    (["A", "B", "C"].Nodup ∧
      "A" ∈ depsOf [("B", ["A"]), ("C", ["B"])] "B" ∧
      ("A", "failed") ∈ (executePlan
        [⟨"A", "CODE", "medium"⟩, ⟨"B", "CODE", "medium"⟩, ⟨"C", "CODE", "medium"⟩]
        [("B", ["A"]), ("C", ["B"])] (fun _ => false) ["A", "B", "C"]).results ∧
      "failed" ≠ "success") ∧
    ("B" ∉ (executePlan
        [⟨"A", "CODE", "medium"⟩, ⟨"B", "CODE", "medium"⟩, ⟨"C", "CODE", "medium"⟩]
        [("B", ["A"]), ("C", ["B"])] (fun _ => false) ["A", "B", "C"]).dispatched ∧
      ∀ sB, ("B", sB) ∈ (executePlan
        [⟨"A", "CODE", "medium"⟩, ⟨"B", "CODE", "medium"⟩, ⟨"C", "CODE", "medium"⟩]
        [("B", ["A"]), ("C", ["B"])] (fun _ => false) ["A", "B", "C"]).results →
        sB = "skipped") :=
  ⟨⟨by decide, by decide, by decide, by decide⟩,
    executePlan_skip_propagation
      [⟨"A", "CODE", "medium"⟩, ⟨"B", "CODE", "medium"⟩, ⟨"C", "CODE", "medium"⟩]
      [("B", ["A"]), ("C", ["B"])] (fun _ => false) ["A", "B", "C"]
      (by decide) "A" "B" "failed" (by decide) (by decide) (by decide)⟩

/-- C8 (amended): when a dispatched critical task fails, the coordinator
stops immediately: the final state is the state at the failure with just the
critical task's "failed" row (and its dispatch) appended, and no remaining
task acquires a report row — in particular the remaining tasks are *not*
recorded "skipped". -/
theorem executePlan_critical_halt
    (taskDefs : List TaskDef) (dependencies : List (String × List String))
    (execOutcome : String → Bool) (tid : String) (td : TaskDef)
    (post : List String) (st : ExecState)
    (hft : findTask taskDefs tid = some td)
    (hdep : ∀ d ∈ depsOf dependencies tid, d ∈ st.completed)
    (hfail : execOutcome tid = false)
    (hcrit : td.priority = "critical") :
    execPlanLoop taskDefs dependencies execOutcome (tid :: post) st =
      ⟨st.results ++ [(tid, "failed")], st.completed, st.dispatched ++ [tid]⟩ ∧
    ∀ t s, t ∉ st.results.map Prod.fst → t ≠ tid →
      (t, s) ∉
        (execPlanLoop taskDefs dependencies execOutcome (tid :: post) st).results := by
  have heq := execPlanLoop_cons_halt taskDefs dependencies execOutcome post st
    hft hdep hfail hcrit
  refine ⟨heq, ?_⟩
  intro t s hkey hne hmem
  rw [heq] at hmem
  rcases List.mem_append.mp hmem with h | h
  · exact hkey (List.mem_map.mpr ⟨(t, s), h, rfl⟩)
  · rw [List.mem_singleton, Prod.mk.injEq] at h
    exact hne h.1

/-- Counterexample to C8 as stated: tasks `A` (critical, fails), `B` and `C`
(both depending on `A`) in order `[A, B, C]`.  The coordinator halts after
`A`, and the remaining tasks `B` and `C` do not appear in the final report
with status "skipped" — they do not appear at all. -/
theorem executePlan_critical_counterexample :
    (executePlan [⟨"A", "CODE", "critical"⟩, ⟨"B", "CODE", "medium"⟩,
        ⟨"C", "CODE", "medium"⟩]
        [("B", ["A"]), ("C", ["A"])] (fun _ => false) ["A", "B", "C"]).results =
      [("A", "failed")] ∧
    ("B", "skipped") ∉ (executePlan [⟨"A", "CODE", "critical"⟩,
        ⟨"B", "CODE", "medium"⟩, ⟨"C", "CODE", "medium"⟩]
        [("B", ["A"]), ("C", ["A"])] (fun _ => false) ["A", "B", "C"]).results ∧
    ("C", "skipped") ∉ (executePlan [⟨"A", "CODE", "critical"⟩,
        ⟨"B", "CODE", "medium"⟩, ⟨"C", "CODE", "medium"⟩]
        [("B", ["A"]), ("C", ["A"])] (fun _ => false) ["A", "B", "C"]).results := by
  refine ⟨by decide, by decide, by decide⟩

/-- Witness for `executePlan_critical_halt` at the concrete halted run of
`executePlan_critical_counterexample`'s plan, started from the empty
state. -/
theorem executePlan_critical_halt_witness :
    (findTask [⟨"A", "CODE", "critical"⟩, ⟨"B", "CODE", "medium"⟩] "A" =
        some ⟨"A", "CODE", "critical"⟩ ∧
      (∀ d ∈ depsOf [("B", ["A"])] "A", d ∈ ([] : List String)) ∧
      (fun (_ : String) => false) "A" = false ∧
      (TaskDef.mk "A" "CODE" "critical").priority = "critical") ∧
    (execPlanLoop [⟨"A", "CODE", "critical"⟩, ⟨"B", "CODE", "medium"⟩]
        [("B", ["A"])] (fun _ => false) ["A", "B"] ⟨[], [], []⟩ =
      ⟨[("A", "failed")], [], ["A"]⟩ ∧
    ∀ t s, t ∉ (([] : List (String × String)).map Prod.fst) → t ≠ "A" →
      (t, s) ∉
        (execPlanLoop [⟨"A", "CODE", "critical"⟩, ⟨"B", "CODE", "medium"⟩]
          [("B", ["A"])] (fun _ => false) ["A", "B"] ⟨[], [], []⟩).results) := by
  refine ⟨⟨by decide, by decide, by decide, by decide⟩, ?_⟩
  have h := executePlan_critical_halt [⟨"A", "CODE", "critical"⟩,
    ⟨"B", "CODE", "medium"⟩] [("B", ["A"])] (fun _ => false) "A"
    ⟨"A", "CODE", "critical"⟩ ["B"] ⟨[], [], []⟩
    (by decide) (by decide) (by decide) (by decide)
  exact ⟨by rw [h.1]; rfl, h.2⟩

/-! ## Hierarchical agents (`hierarchical_agent.py`) -/

/-- Parsed outcome of `_plan_execution` (hierarchical_agent.py lines
125-216): whether to spawn sub-agents (`needs_sub_agents`) and the
`sub_agent_tasks` descriptions.  Planning failures and unparsable plans
surface as `needsSubAgents = false`, so the oracle covers them. -/
structure PlanDecision where
  needsSubAgents : Bool
  subTasks : List String
  deriving Repr, DecidableEq

/-- The tree of `HierarchicalAgent` objects created by one root `execute`
call: each node records the `depth` the agent was constructed with, its task
description, whether it went through `_execute_with_sub_agents`, and the
child agents it appended to `self.children`. -/
inductive AgentTree where
  | node (depth : Nat) (task : String) (usedSubAgents : Bool)
      (children : List AgentTree)

def AgentTree.depth : AgentTree → Nat
  | .node d _ _ _ => d

def AgentTree.task : AgentTree → String
  | .node _ t _ _ => t

def AgentTree.usedSubAgents : AgentTree → Bool
  | .node _ _ u _ => u

def AgentTree.children : AgentTree → List AgentTree
  | .node _ _ _ c => c

/-- `IsNodeOf n t` holds when `n` is `t` itself or a node of one of `t`'s
child subtrees — the agents created during `t`'s execution. -/
inductive IsNodeOf : AgentTree → AgentTree → Prop where
  | refl (t : AgentTree) : IsNodeOf t t
  | child {n c : AgentTree} {d : Nat} {task : String} {u : Bool}
      {cs : List AgentTree} (hc : c ∈ cs) (h : IsNodeOf n c) :
      IsNodeOf n (AgentTree.node d task u cs)

/-- Embeds `HierarchicalAgent.execute` (hierarchical_agent.py lines 94-112)
with the spawning part of `_execute_with_sub_agents` (lines 218-261): the
agent consults the planning collaborator (`plan`, abstracting
`_plan_execution`); when the plan requests sub-agents *and* `self.depth <
self.max_depth` (line 99), one child agent per `sub_agent_tasks` entry is
constructed with `depth = self.depth + 1` (line 249) and executed
recursively; otherwise the agent executes directly and creates no children.
`fuel` makes the recursion structural; since the guard keeps every child's
depth ≤ `maxDepth`, the caller's fuel of `maxDepth + 1` is never exhausted
(a fuel-0 agent executes directly, exactly like the guard's else branch). -/
def executeAgent (plan : Nat → String → PlanDecision) (maxDepth : Nat) :
    Nat → Nat → String → AgentTree
  | 0, depth, task => .node depth task false []
  | fuel + 1, depth, task =>
    let p := plan depth task
    if p.needsSubAgents = true ∧ depth < maxDepth then
      .node depth task true
        (p.subTasks.map (fun sub => executeAgent plan maxDepth fuel (depth + 1) sub))
    else
      .node depth task false []

/-- A root `HierarchicalAgent` run: depth 0, ample fuel. -/
def runHierarchicalAgent (plan : Nat → String → PlanDecision) (maxDepth : Nat)
    (task : String) : AgentTree :=
  executeAgent plan maxDepth (maxDepth + 1) 0 task

/-- Every node of a subtree rooted at depth ≤ `maxDepth` stays within the
depth bound, and a node sitting exactly at the bound never spawns. -/
theorem executeAgent_depth_bound (plan : Nat → String → PlanDecision)
    (maxDepth : Nat) :
    ∀ (fuel depth : Nat) (task : String) (n : AgentTree),
      IsNodeOf n (executeAgent plan maxDepth fuel depth task) →
      depth ≤ maxDepth →
      n.depth ≤ maxDepth ∧
        (n.depth = maxDepth → n.usedSubAgents = false ∧ n.children = []) := by
  intro fuel
  induction fuel with
  | zero =>
    intro depth task n hn hd
    cases hn with
    | refl => exact ⟨hd, fun _ => ⟨rfl, rfl⟩⟩
    | child hc _ => cases hc
  | succ fuel ih =>
    intro depth task n hn hd
    by_cases hcond : (plan depth task).needsSubAgents = true ∧ depth < maxDepth
    · rw [show executeAgent plan maxDepth (fuel + 1) depth task =
          AgentTree.node depth task true
            ((plan depth task).subTasks.map
              (fun sub => executeAgent plan maxDepth fuel (depth + 1) sub)) from by
        simp only [executeAgent]
        rw [if_pos hcond]] at hn
      cases hn with
      | refl =>
        refine ⟨Nat.le_of_lt hcond.2, fun he => absurd ?_ (Nat.ne_of_lt hcond.2)⟩
        simpa [AgentTree.depth] using he
      | child hc h =>
        obtain ⟨sub, _, hceq⟩ := List.mem_map.mp hc
        rw [← hceq] at h
        exact ih (depth + 1) sub n h hcond.2
    · rw [show executeAgent plan maxDepth (fuel + 1) depth task =
          AgentTree.node depth task false [] from by
        simp only [executeAgent]
        rw [if_neg hcond]] at hn
      cases hn with
      | refl => exact ⟨hd, fun _ => ⟨rfl, rfl⟩⟩
      | child hc _ => cases hc

/-- C3: for every `HierarchicalAgent` tree rooted at depth 0 with bound
`max_depth`, no agent node is ever created with depth greater than
`max_depth`; and every node sitting at `depth = max_depth` — in particular
one whose plan requested decomposition — creates no children and executes
its task directly (`usedSubAgents = false`). -/
theorem hierarchicalAgent_depth_invariant (plan : Nat → String → PlanDecision)
    (maxDepth : Nat) (task : String) (n : AgentTree)
    (hn : IsNodeOf n (runHierarchicalAgent plan maxDepth task)) :
    n.depth ≤ maxDepth ∧
      (n.depth = maxDepth → n.usedSubAgents = false ∧ n.children = []) :=
  executeAgent_depth_bound plan maxDepth (maxDepth + 1) 0 task n hn
    (Nat.zero_le _)

/-- Witness for `hierarchicalAgent_depth_invariant`: a planner that always
asks to decompose, bound 1; the child agent spawned at depth 1 sits at the
bound, decomposition is requested there, yet it has no children and executed
directly. -/
theorem hierarchicalAgent_depth_invariant_witness :
    IsNodeOf (AgentTree.node 1 "s1" false [])
      (runHierarchicalAgent (fun _ _ => ⟨true, ["s1", "s2"]⟩) 1 "root") ∧
    ((AgentTree.node 1 "s1" false []).depth ≤ 1 ∧
      ((AgentTree.node 1 "s1" false []).depth = 1 →
        (AgentTree.node 1 "s1" false []).usedSubAgents = false ∧
        (AgentTree.node 1 "s1" false []).children = [])) := by
  have hrun : runHierarchicalAgent (fun _ _ => ⟨true, ["s1", "s2"]⟩) 1 "root" =
      AgentTree.node 0 "root" true
        [AgentTree.node 1 "s1" false [], AgentTree.node 1 "s2" false []] := rfl
  have hn : IsNodeOf (AgentTree.node 1 "s1" false [])
      (runHierarchicalAgent (fun _ _ => ⟨true, ["s1", "s2"]⟩) 1 "root") := by
    rw [hrun]
    exact IsNodeOf.child (List.mem_cons_self _ _) (IsNodeOf.refl _)
  exact ⟨hn, hierarchicalAgent_depth_invariant _ 1 "root" _ hn⟩

/-- Outcome of one gathered child in `_execute_with_sub_agents`
(hierarchical_agent.py lines 258-279): `asyncio.gather(...,
return_exceptions=True)` yields either an exception object or the child's
result dict, whose "status" field is inspected. -/
inductive ChildOutcome where
  | exc
  | result (status : String)
  deriving Repr, DecidableEq

/-- A child counts as failed when gather returned an exception or the result
dict carries status "failure" (lines 269-275). -/
def childFailed : ChildOutcome → Bool
  | .exc => true
  | .result s => s == "failure"

/-- The parent-level fields assembled at hierarchical_agent.py lines
284-292. -/
structure AggregateResult where
  status : String
  subAgentsSpawned : Nat
  subAgentsSucceeded : Nat
  subAgentsFailed : Nat
  deriving Repr, DecidableEq

/-- Embeds the aggregation loop of `_execute_with_sub_agents`
(hierarchical_agent.py lines 263-292): count failed children, collect the
successful results, and return status "success" when `failed_count == 0`
and "partial" otherwise.  The synthesis collaborator call only fills the
summary/artifact fields and is omitted. -/
def aggregateSubAgents (outcomes : List ChildOutcome) : AggregateResult :=
  let failedCount := (outcomes.filter childFailed).length
  { status := if failedCount = 0 then "success" else "partial"
    subAgentsSpawned := outcomes.length
    subAgentsSucceeded := (outcomes.filter (fun o => ! childFailed o)).length
    subAgentsFailed := failedCount }

/-- Counterexample to C6 as stated: a parent with exactly one child whose
result dict has status "failure" — no child succeeded, yet the aggregated
status is "partial", not the "failed" the claim requires. -/
theorem aggregateSubAgents_counterexample :
    (aggregateSubAgents [ChildOutcome.result "failure"]).subAgentsSucceeded = 0 ∧
    (aggregateSubAgents [ChildOutcome.result "failure"]).status = "partial" ∧
    (aggregateSubAgents [ChildOutcome.result "failure"]).status ≠ "failed" := by
  refine ⟨by decide, by decide, by decide⟩

/-- C6 (amended): when a `HierarchicalAgent` decomposes into N ≥ 1 children
and awaits them all, the parent's aggregated status is "success" exactly
when every child succeeded and "partial" otherwise — including when no child
succeeded; the aggregated status is never "failed". -/
theorem aggregateSubAgents_status (outcomes : List ChildOutcome)
    (hne : 1 ≤ outcomes.length) :
    (aggregateSubAgents outcomes).status =
      (if outcomes.all (fun o => ! childFailed o) then "success" else "partial") ∧
    (aggregateSubAgents outcomes).status ≠ "failed" := by
  by_cases hall : ∀ o ∈ outcomes, childFailed o = false
  · have h0 : (outcomes.filter childFailed).length = 0 := by
      rw [List.length_eq_zero, List.filter_eq_nil_iff]
      intro a ha
      simp [hall a ha]
    have hb : outcomes.all (fun o => ! childFailed o) = true := by
      rw [List.all_eq_true]
      intro o ho
      simp [hall o ho]
    constructor
    · simp [aggregateSubAgents, h0, hb]
    · simp [aggregateSubAgents, h0]
  · have hex : ∃ o ∈ outcomes, childFailed o = true := by
      by_contra hno
      push_neg at hno
      exact hall (fun o ho => by
        cases h : childFailed o with
        | false => rfl
        | true => exact absurd h (hno o ho))
    obtain ⟨o, ho, hof⟩ := hex
    have h0 : (outcomes.filter childFailed).length ≠ 0 := by
      intro hc
      rw [List.length_eq_zero, List.filter_eq_nil_iff] at hc
      exact absurd hof (by simpa using hc o ho)
    have hb : outcomes.all (fun o => ! childFailed o) = false := by
      rw [List.all_eq_false]
      exact ⟨o, ho, by simp [hof]⟩
    constructor
    · simp [aggregateSubAgents, h0, hb]
    · simp [aggregateSubAgents, h0]

/-- Witness for `aggregateSubAgents_status` on two children, one failed. -/
theorem aggregateSubAgents_status_witness :
    (1 ≤ [ChildOutcome.result "success", ChildOutcome.exc].length) ∧
    ((aggregateSubAgents [ChildOutcome.result "success", ChildOutcome.exc]).status =
      (if [ChildOutcome.result "success", ChildOutcome.exc].all
          (fun o => ! childFailed o) then "success" else "partial") ∧
     (aggregateSubAgents [ChildOutcome.result "success", ChildOutcome.exc]).status ≠
       "failed") :=
  ⟨by decide, aggregateSubAgents_status _ (by decide)⟩

/-- What `self.claude.execute_prompt(...)` hands back to `_execute_directly`
(hierarchical_agent.py line 386): a success flag, the raw output text, and
the metadata error message. -/
structure ExecutorResponse where
  success : Bool
  output : String
  errorMsg : String
  deriving Repr, DecidableEq

/-- Models the slicing of `_execute_directly` (hierarchical_agent.py lines
399-410): `json_start = output.find("\x7b")` (first index, `-1` when
absent), `json_end = output.rfind("\x7d") + 1`, and the slice
`output[json_start:json_end]` is taken when `json_start >= 0 and json_end >
json_start`; otherwise the "No JSON in output" error is raised into the
except branch, which we model as `none`. -/
def extractJson (output : String) : Option String :=
  let cs := output.toList
  let jsonStart : Int :=
    match cs.findIdx? (fun c => c == '\x7b') with
    | some i => (i : Int)
    | none => -1
  let jsonEnd : Int :=
    match cs.reverse.findIdx? (fun c => c == '\x7d') with
    | some j => (cs.length : Int) - (j : Int)
    | none => -1 + 1
  if 0 ≤ jsonStart ∧ jsonStart < jsonEnd then
    some (String.mk ((cs.drop jsonStart.toNat).take (jsonEnd - jsonStart).toNat))
  else
    none

/-- The fields of the result dict of `_execute_directly` that the claims
inspect. -/
structure AgentResult where
  status : String
  summary : String
  deriving Repr, DecidableEq

/-- Embeds `_execute_directly` (hierarchical_agent.py lines 349-419).
`jsonLoads` is the external `json.loads` on the sliced string, `none`
standing for a raise.  When the executor collaborator reports failure, a
status-"failure" dict is returned; when it reports success, the output is
sliced and parsed, and — the except branch at lines 412-419 — a missing or
unparsable JSON payload yields a dict with status "success" and summary
"Task executed (result parsing failed)". -/
def executeDirectly (jsonLoads : String → Option AgentResult)
    (resp : ExecutorResponse) : AgentResult :=
  if resp.success = false then
    { status := "failure", summary := "Failed to execute task" }
  else
    match extractJson resp.output with
    | none =>
      { status := "success", summary := "Task executed (result parsing failed)" }
    | some js =>
      match jsonLoads js with
      | some r => r
      | none =>
        { status := "success", summary := "Task executed (result parsing failed)" }

/-- Embeds the status bookkeeping of `HierarchicalAgent.execute`
(hierarchical_agent.py lines 92-123): unless an exception escapes the
execution path, `self.status` is set to "completed" — regardless of what the
returned result dict says. -/
def agentStatusAfter (raised : Bool) : String :=
  if raised then "failed" else "completed"

/-- Counterexample to C10 as stated: the executor collaborator returns
success with free text containing no JSON; `_execute_directly` cannot parse
a structured result, yet it records status "success" (and
`HierarchicalAgent.execute`, raising nothing, marks the agent
"completed"). -/
theorem executeDirectly_counterexample :
    extractJson "I created the files as requested." = none ∧
    (executeDirectly (fun _ => none)
        ⟨true, "I created the files as requested.", ""⟩).status = "success" ∧
    agentStatusAfter false = "completed" := by
  refine ⟨by decide, by decide, by decide⟩

/-- C10 (amended): `_execute_directly` records status "failure" whenever the
executor collaborator itself signals failure; but when the collaborator
signals success and its response cannot be parsed into the structured result
format — whether because no JSON slice exists or because loading the slice
fails — the outcome *is* recorded with status "success" (summary "Task
executed (result parsing failed)"), and the agent's own status becomes
"completed" whenever no exception escapes. -/
theorem executeDirectly_status (jsonLoads : String → Option AgentResult)
    (resp : ExecutorResponse) :
    (resp.success = false →
      (executeDirectly jsonLoads resp).status = "failure") ∧
    (resp.success = true → extractJson resp.output = none →
      (executeDirectly jsonLoads resp).status = "success") ∧
    (resp.success = true → ∀ js, extractJson resp.output = some js →
      jsonLoads js = none →
      (executeDirectly jsonLoads resp).status = "success") := by
  refine ⟨?_, ?_, ?_⟩
  · intro h
    simp [executeDirectly, h]
  · intro h hnone
    simp [executeDirectly, h, hnone]
  · intro h js hjs hload
    simp [executeDirectly, h, hjs, hload]

/-- Witness for `executeDirectly_status` at a failing executor response and
at a successful-but-unparsable one. -/
theorem executeDirectly_status_witness :
    ((ExecutorResponse.mk false "" "timeout").success = false ∧
      (executeDirectly (fun _ => none)
        ⟨false, "", "timeout"⟩).status = "failure") ∧
    ((ExecutorResponse.mk true "done" "").success = true ∧
      extractJson "done" = none ∧
      (executeDirectly (fun _ => none) ⟨true, "done", ""⟩).status = "success") :=
  ⟨⟨by decide, (executeDirectly_status (fun _ => none) ⟨false, "", "timeout"⟩).1 (by decide)⟩,
    ⟨by decide, by decide,
      (executeDirectly_status (fun _ => none) ⟨true, "done", ""⟩).2.1
        (by decide) (by decide)⟩⟩

/-! ## Refinement workflow (`hybrid_codex_claude_workflow.py`) -/

/-- What a Codex (implementer) call returns (`CodexResult`): success flag,
produced code and free-text output, error message. -/
structure CodexRes where
  success : Bool
  code : Option String
  output : Option String
  errorMsg : String
  deriving Repr, DecidableEq

/-- What a Claude review returns (`ReviewResult`): the approved flag and the
feedback fed back into refinement.  The quality score is a float copied
verbatim into the result and not inspected by the control flow, so it is
omitted. -/
structure ReviewRes where
  approved : Bool
  feedback : String
  deriving Repr, DecidableEq

/-- The fields of `HybridWorkflowResult` the claims inspect (total_time and
quality_score are omitted as above). -/
structure WorkflowResult where
  success : Bool
  finalCode : Option String
  finalOutput : Option String
  iterations : Nat
  codexIterations : Nat
  claudeReviews : Nat
  errorMsg : Option String
  deriving Repr, DecidableEq

/-- Embeds the `while self.current_iteration <= self.max_iterations:` loop of
`HybridCodexClaudeWorkflow.execute` (hybrid_codex_claude_workflow.py lines
112-179).  `impl n` is the implementer collaborator producing attempt `n`
(`n = 0` the initial implementation, `n ≥ 1` the refinement requested at
iteration `n`); `review i c` is the reviewer collaborator called at
`current_iteration = i` on codex result `c`.  `nImpl`/`nRev` mirror
`len(self.codex_results)`/`len(self.claude_reviews)`.  `fuel` makes the loop
structural; the loop runs at most `maxIter` iterations, so the caller's fuel
of `maxIter + 1` is never exhausted and the fuel-0 branch coincides with the
source's unreachable "Unexpected workflow termination" return (lines
171-179), which is also the `current > maxIter` loop exit. -/
def workflowLoop (impl : Nat → CodexRes) (review : Nat → CodexRes → ReviewRes)
    (maxIter : Nat) :
    Nat → Nat → CodexRes → Nat → Nat → WorkflowResult
  | 0, current, _, nImpl, nRev =>
    ⟨false, none, none, current, nImpl, nRev,
      some "Unexpected workflow termination"⟩
  | fuel + 1, current, codexRes, nImpl, nRev =>
    if current ≤ maxIter then
      let r := review current codexRes
      if r.approved then
        ⟨true, codexRes.code, codexRes.output, current, nImpl, nRev + 1, none⟩
      else if maxIter ≤ current then
        ⟨false, codexRes.code, codexRes.output, current, nImpl, nRev + 1,
          some "Max iterations reached without approval"⟩
      else
        let c2 := impl current
        if c2.success then
          workflowLoop impl review maxIter fuel (current + 1) c2
            (nImpl + 1) (nRev + 1)
        else
          ⟨false, none, none, current, nImpl, nRev + 1,
            some "Codex refinement failed"⟩
    else
      ⟨false, none, none, current, nImpl, nRev,
        some "Unexpected workflow termination"⟩

/-- Embeds `HybridCodexClaudeWorkflow.execute` (lines 82-191): run the
initial implementation (attempt 0); on failure return the distinct
initial-failure result with zero iterations; otherwise enter the
review/refine loop at `current_iteration = 1`. -/
def workflowExecute (impl : Nat → CodexRes) (review : Nat → CodexRes → ReviewRes)
    (maxIter : Nat) : WorkflowResult :=
  let c0 := impl 0
  if c0.success then
    workflowLoop impl review maxIter (maxIter + 1) 1 c0 1 0
  else
    ⟨false, none, none, 0, 0, 0, some "Codex initial implementation failed"⟩

/-- The loop issues at most `maxIter + 1 - current` further reviewer calls on
top of the `nRev` already recorded. -/
theorem workflowLoop_reviews_le (impl : Nat → CodexRes)
    (review : Nat → CodexRes → ReviewRes) (maxIter : Nat) :
    ∀ (fuel current : Nat) (codexRes : CodexRes) (nImpl nRev : Nat),
      (workflowLoop impl review maxIter fuel current codexRes nImpl nRev).claudeReviews ≤
        nRev + (maxIter + 1 - current) := by
  intro fuel
  induction fuel with
  | zero =>
    intro current codexRes nImpl nRev
    simp [workflowLoop]
  | succ fuel ih =>
    intro current codexRes nImpl nRev
    by_cases hle : current ≤ maxIter
    · rw [show workflowLoop impl review maxIter (fuel + 1) current codexRes nImpl nRev =
          if (review current codexRes).approved then
            ⟨true, codexRes.code, codexRes.output, current, nImpl, nRev + 1, none⟩
          else if maxIter ≤ current then
            ⟨false, codexRes.code, codexRes.output, current, nImpl, nRev + 1,
              some "Max iterations reached without approval"⟩
          else if (impl current).success then
            workflowLoop impl review maxIter fuel (current + 1) (impl current)
              (nImpl + 1) (nRev + 1)
          else
            ⟨false, none, none, current, nImpl, nRev + 1,
              some "Codex refinement failed"⟩ from by
        simp only [workflowLoop]
        rw [if_pos hle]]
      by_cases happ : (review current codexRes).approved
      · simp only [happ, if_true]
        omega
      · simp only [happ, if_false, Bool.false_eq_true]
        by_cases hbound : maxIter ≤ current
        · rw [if_pos hbound]
          dsimp only
          omega
        · rw [if_neg hbound]
          by_cases himpl : (impl current).success
          · simp only [himpl, if_true]
            have := ih (current + 1) (impl current) (nImpl + 1) (nRev + 1)
            omega
          · simp only [himpl, if_false, Bool.false_eq_true]
            omega
    · rw [show workflowLoop impl review maxIter (fuel + 1) current codexRes nImpl nRev =
          ⟨false, none, none, current, nImpl, nRev,
            some "Unexpected workflow termination"⟩ from by
        simp only [workflowLoop]
        rw [if_neg hle]]
      dsimp only
      omega

/-- Full characterisation of a loop run in which every implementation call
succeeds and no review approves: the run ends at the iteration bound with
the last attempt's artifact preserved. -/
theorem workflowLoop_no_approval (impl : Nat → CodexRes)
    (review : Nat → CodexRes → ReviewRes) (maxIter : Nat)
    (himpl : ∀ n, (impl n).success = true)
    (hrev : ∀ n c, (review n c).approved = false) :
    ∀ (fuel current : Nat) (codexRes : CodexRes) (nImpl nRev : Nat),
      current ≤ maxIter → maxIter + 1 - current ≤ fuel →
      workflowLoop impl review maxIter fuel current codexRes nImpl nRev =
        ⟨false,
          (if current = maxIter then codexRes else impl (maxIter - 1)).code,
          (if current = maxIter then codexRes else impl (maxIter - 1)).output,
          maxIter, nImpl + (maxIter - current), nRev + (maxIter + 1 - current),
          some "Max iterations reached without approval"⟩ := by
  intro fuel
  induction fuel with
  | zero =>
    intro current codexRes nImpl nRev hle hfuel
    omega
  | succ fuel ih =>
    intro current codexRes nImpl nRev hle hfuel
    rw [show workflowLoop impl review maxIter (fuel + 1) current codexRes nImpl nRev =
        if (review current codexRes).approved then
          ⟨true, codexRes.code, codexRes.output, current, nImpl, nRev + 1, none⟩
        else if maxIter ≤ current then
          ⟨false, codexRes.code, codexRes.output, current, nImpl, nRev + 1,
            some "Max iterations reached without approval"⟩
        else if (impl current).success then
          workflowLoop impl review maxIter fuel (current + 1) (impl current)
            (nImpl + 1) (nRev + 1)
        else
          ⟨false, none, none, current, nImpl, nRev + 1,
            some "Codex refinement failed"⟩ from by
      simp only [workflowLoop]
      rw [if_pos hle]]
    simp only [hrev, Bool.false_eq_true, if_false]
    by_cases hbound : maxIter ≤ current
    · have hcm : current = maxIter := Nat.le_antisymm hle hbound
      subst hcm
      rw [if_pos hbound]
      have h1 : current - current = 0 := by omega
      have h2 : current + 1 - current = 1 := by omega
      simp [h1, h2]
    · rw [if_neg hbound]
      simp only [himpl, if_true]
      rw [ih (current + 1) (impl current) (nImpl + 1) (nRev + 1)
        (by omega) (by omega)]
      have hne : ¬ current = maxIter := by omega
      rw [if_neg hne]
      have h1 : nImpl + 1 + (maxIter - (current + 1)) =
          nImpl + (maxIter - current) := by omega
      have h2 : nRev + 1 + (maxIter + 1 - (current + 1)) =
          nRev + (maxIter + 1 - current) := by omega
      rw [h1, h2]
      by_cases he : current + 1 = maxIter
      · rw [if_pos he]
        have : impl current = impl (maxIter - 1) := by
          congr 1
          omega
        rw [this]
      · rw [if_neg he]

/-- C4: for every run of the refinement workflow with `max_iterations ≥ 1`,
the reviewer collaborator is invoked at most `max_iterations + 1` times (the
loop in fact issues at most `max_iterations` reviews); and when every
implementation call succeeds and no review ever returns approved, the
workflow returns a failure result whose recorded iteration count equals
`max_iterations` and whose final code/output fields hold the artifact of the
last implementation attempt (attempt `max_iterations - 1`), not
discarded. -/
theorem workflowExecute_bound_and_exhaustion (impl : Nat → CodexRes)
    (review : Nat → CodexRes → ReviewRes) (maxIter : Nat) (hmi : 1 ≤ maxIter) :
    (workflowExecute impl review maxIter).claudeReviews ≤ maxIter + 1 ∧
    ((∀ n, (impl n).success = true) → (∀ n c, (review n c).approved = false) →
      (workflowExecute impl review maxIter).success = false ∧
      (workflowExecute impl review maxIter).iterations = maxIter ∧
      (workflowExecute impl review maxIter).finalCode = (impl (maxIter - 1)).code ∧
      (workflowExecute impl review maxIter).finalOutput =
        (impl (maxIter - 1)).output) := by
  constructor
  · by_cases h0 : (impl 0).success
    · rw [show workflowExecute impl review maxIter =
          workflowLoop impl review maxIter (maxIter + 1) 1 (impl 0) 1 0 from by
        simp only [workflowExecute]
        rw [if_pos h0]]
      have := workflowLoop_reviews_le impl review maxIter (maxIter + 1) 1 (impl 0) 1 0
      omega
    · rw [show workflowExecute impl review maxIter =
          ⟨false, none, none, 0, 0, 0, some "Codex initial implementation failed"⟩ from by
        simp only [workflowExecute]
        rw [if_neg h0]]
      dsimp only
      omega
  · intro himpl hrev
    rw [show workflowExecute impl review maxIter =
        workflowLoop impl review maxIter (maxIter + 1) 1 (impl 0) 1 0 from by
      simp only [workflowExecute]
      rw [if_pos (himpl 0)]]
    rw [workflowLoop_no_approval impl review maxIter himpl hrev (maxIter + 1) 1
      (impl 0) 1 0 hmi (by omega)]
    by_cases he : (1 : Nat) = maxIter
    · rw [if_pos he]
      have : impl 0 = impl (maxIter - 1) := by
        congr 1
        omega
      rw [this]
      exact ⟨rfl, rfl, rfl, rfl⟩
    · rw [if_neg he]
      exact ⟨rfl, rfl, rfl, rfl⟩

/-- Witness for `workflowExecute_bound_and_exhaustion`: two iterations, a
reviewer that never approves, an implementer that always succeeds. -/
theorem workflowExecute_bound_witness :
    ((1 : Nat) ≤ 2 ∧ (∀ n : Nat, ((fun _ : Nat =>
        CodexRes.mk true (some "code") (some "out") "") n).success = true) ∧
      (∀ (n : Nat) (c : CodexRes),
        ((fun (_ : Nat) (_ : CodexRes) => ReviewRes.mk false "needs work") n c).approved =
          false)) ∧
    ((workflowExecute (fun _ => ⟨true, some "code", some "out", ""⟩)
        (fun _ _ => ⟨false, "needs work"⟩) 2).claudeReviews ≤ 2 + 1 ∧
      ((∀ n, ((fun _ : Nat => CodexRes.mk true (some "code") (some "out") "") n).success =
          true) →
        (∀ (n : Nat) (c : CodexRes),
          ((fun (_ : Nat) (_ : CodexRes) => ReviewRes.mk false "needs work") n c).approved =
            false) →
        (workflowExecute (fun _ => ⟨true, some "code", some "out", ""⟩)
          (fun _ _ => ⟨false, "needs work"⟩) 2).success = false ∧
        (workflowExecute (fun _ => ⟨true, some "code", some "out", ""⟩)
          (fun _ _ => ⟨false, "needs work"⟩) 2).iterations = 2 ∧
        (workflowExecute (fun _ => ⟨true, some "code", some "out", ""⟩)
          (fun _ _ => ⟨false, "needs work"⟩) 2).finalCode =
          ((fun _ : Nat => CodexRes.mk true (some "code") (some "out") "") (2 - 1)).code ∧
        (workflowExecute (fun _ => ⟨true, some "code", some "out", ""⟩)
          (fun _ _ => ⟨false, "needs work"⟩) 2).finalOutput =
          ((fun _ : Nat => CodexRes.mk true (some "code") (some "out") "") (2 - 1)).output)) :=
  ⟨⟨by decide, fun _ => rfl, fun _ _ => rfl⟩,
    workflowExecute_bound_and_exhaustion
      (fun _ => ⟨true, some "code", some "out", ""⟩)
      (fun _ _ => ⟨false, "needs work"⟩) 2 (by decide)⟩

/-- Counterexample to C9 as stated: with `max_iterations = 3`, reviews
rejecting at iterations 1 and 2 (attempts 0 and 1) and approving at
iteration 3 (attempt 2), the workflow succeeds but records
`iterations = 3`, not the claimed 2: `current_iteration` counts
implementation attempts starting at 1, not 0-based review indices. -/
theorem workflowExecute_scenario_counterexample :
    (workflowExecute (fun _ => ⟨true, some "code", some "out", ""⟩)
        (fun n _ => ⟨decide (n = 3), "feedback"⟩) 3).success = true ∧
    (workflowExecute (fun _ => ⟨true, some "code", some "out", ""⟩)
        (fun n _ => ⟨decide (n = 3), "feedback"⟩) 3).iterations = 3 ∧
    ¬ (workflowExecute (fun _ => ⟨true, some "code", some "out", ""⟩)
        (fun n _ => ⟨decide (n = 3), "feedback"⟩) 3).iterations = 2 := by
  refine ⟨by decide, by decide, by decide⟩

/-- C9 (amended): if the refinement workflow runs with `max_iterations = 3`,
every implementation call succeeds, and the reviewer rejects the first two
reviewed artifacts (attempts 0 and 1, reviewed at iterations 1 and 2) and
approves the third (attempt 2, reviewed at iteration 3), the workflow
returns success with verdict approved, the approved artifact, and a recorded
iteration count of 3 — the counter counts implementation attempts including
the initial one, so approval of 0-based attempt 2 is recorded as 3. -/
theorem workflowExecute_scenario (impl : Nat → CodexRes)
    (review : Nat → CodexRes → ReviewRes)
    (himpl : ∀ n, (impl n).success = true)
    (h1 : ∀ c, (review 1 c).approved = false)
    (h2 : ∀ c, (review 2 c).approved = false)
    (h3 : ∀ c, (review 3 c).approved = true) :
    (workflowExecute impl review 3).success = true ∧
    (workflowExecute impl review 3).iterations = 3 ∧
    (workflowExecute impl review 3).finalCode = (impl 2).code := by
  rw [show workflowExecute impl review 3 =
      workflowLoop impl review 3 4 1 (impl 0) 1 0 from by
    simp only [workflowExecute]
    rw [if_pos (himpl 0)]]
  rw [show workflowLoop impl review 3 4 1 (impl 0) 1 0 =
      workflowLoop impl review 3 3 2 (impl 1) 2 1 from by
    simp only [workflowLoop]
    rw [if_pos (by omega : (1 : Nat) ≤ 3)]
    simp [h1, himpl]]
  rw [show workflowLoop impl review 3 3 2 (impl 1) 2 1 =
      workflowLoop impl review 3 2 3 (impl 2) 3 2 from by
    simp only [workflowLoop]
    rw [if_pos (by omega : (2 : Nat) ≤ 3)]
    simp [h2, himpl]]
  rw [show workflowLoop impl review 3 2 3 (impl 2) 3 2 =
      ⟨true, (impl 2).code, (impl 2).output, 3, 3, 3, none⟩ from by
    simp only [workflowLoop]
    rw [if_pos (by omega : (3 : Nat) ≤ 3)]
    simp [h3]]
  exact ⟨rfl, rfl, rfl⟩

/-- Witness for `workflowExecute_scenario` on concrete collaborators. -/
theorem workflowExecute_scenario_witness :
    ((∀ n : Nat, ((fun _ : Nat =>
        CodexRes.mk true (some "v") (some "o") "") n).success = true) ∧
      (∀ c : CodexRes,
        ((fun (n : Nat) (_ : CodexRes) => ReviewRes.mk (decide (n = 3)) "fb") 1 c).approved =
          false) ∧
      (∀ c : CodexRes,
        ((fun (n : Nat) (_ : CodexRes) => ReviewRes.mk (decide (n = 3)) "fb") 2 c).approved =
          false) ∧
      (∀ c : CodexRes,
        ((fun (n : Nat) (_ : CodexRes) => ReviewRes.mk (decide (n = 3)) "fb") 3 c).approved =
          true)) ∧
    ((workflowExecute (fun _ => ⟨true, some "v", some "o", ""⟩)
        (fun n _ => ⟨decide (n = 3), "fb"⟩) 3).success = true ∧
      (workflowExecute (fun _ => ⟨true, some "v", some "o", ""⟩)
        (fun n _ => ⟨decide (n = 3), "fb"⟩) 3).iterations = 3 ∧
      (workflowExecute (fun _ => ⟨true, some "v", some "o", ""⟩)
        (fun n _ => ⟨decide (n = 3), "fb"⟩) 3).finalCode =
        ((fun _ : Nat => CodexRes.mk true (some "v") (some "o") "") 2).code) :=
  ⟨⟨fun _ => rfl, fun _ => rfl, fun _ => rfl, fun _ => rfl⟩,
    workflowExecute_scenario (fun _ => ⟨true, some "v", some "o", ""⟩)
      (fun n _ => ⟨decide (n = 3), "fb"⟩)
      (fun _ => rfl) (fun _ => rfl) (fun _ => rfl) (fun _ => rfl)⟩

/-! ## Dialogue execution loop (`hybrid_orchestrator_v4_iterative.py`) -/

/-- Parsed outcome of one `_claude_execute_stage` call (lines 859-969): the
"status" field and the "needs_more_info" flag the loop inspects. -/
structure StageRes where
  status : String
  needsMoreInfo : Bool
  deriving Repr, DecidableEq

/-- How the stage-3 loop of `execute_goal_iterative` ended. -/
inductive LoopOutcome where
  | complete
  | failed
  | exhausted
  deriving Repr, DecidableEq

/-- Embeds the `while not execution_complete and current_turn <=
max_dialogue_turns:` loop of `execute_goal_iterative`
(hybrid_orchestrator_v4_iterative.py lines 289-399).  Each iteration issues
exactly one executor progress call (`stage current`, abstracting
`_claude_execute_stage`); a "needs_more_info" result additionally triggers
one information-provider call (counted in the third component); a "complete"
status exits the loop successfully, a "failed" status breaks with a failed
run, and otherwise `current_turn` advances.  `fuel` makes the loop
structural; the loop body runs at most `maxTurns` times, so the caller's
fuel of `maxTurns + 1` is never exhausted and the fuel-0 branch coincides
with the turn-budget exit. -/
def dialogueLoop (stage : Nat → StageRes) (maxTurns : Nat) :
    Nat → Nat → Nat → Nat → LoopOutcome × Nat × Nat
  | 0, _, calls, infoCalls => (.exhausted, calls, infoCalls)
  | fuel + 1, current, calls, infoCalls =>
    if current ≤ maxTurns then
      let r := stage current
      let calls' := calls + 1
      let infoCalls' := if r.needsMoreInfo then infoCalls + 1 else infoCalls
      if r.status = "complete" then (.complete, calls', infoCalls')
      else if r.status = "failed" then (.failed, calls', infoCalls')
      else dialogueLoop stage maxTurns fuel (current + 1) calls' infoCalls'
    else
      (.exhausted, calls, infoCalls)

/-- Embeds the overall-status computation of `execute_goal_iterative`: the
stage-3 loop runs from turn 1, a "failed" break leaves
`execution_result.status = "failed"`, and otherwise lines 499-500 set
"completed" when the loop completed and "partial" when the turn budget ran
out.  Returns the overall status together with the number of executor
progress calls issued. -/
def executeGoalIterative (stage : Nat → StageRes) (maxTurns : Nat) :
    String × Nat :=
  let out := dialogueLoop stage maxTurns (maxTurns + 1) 1 0 0
  (match out.1 with
   | .complete => "completed"
   | .failed => "failed"
   | .exhausted => "partial",
   out.2.1)

/-- The dialogue loop issues at most `maxTurns + 1 - current` further
executor calls on top of the `calls` already counted. -/
theorem dialogueLoop_calls_le (stage : Nat → StageRes) (maxTurns : Nat) :
    ∀ (fuel current calls infoCalls : Nat),
      (dialogueLoop stage maxTurns fuel current calls infoCalls).2.1 ≤
        calls + (maxTurns + 1 - current) := by
  intro fuel
  induction fuel with
  | zero =>
    intro current calls infoCalls
    simp [dialogueLoop]
  | succ fuel ih =>
    intro current calls infoCalls
    by_cases hle : current ≤ maxTurns
    · rw [show dialogueLoop stage maxTurns (fuel + 1) current calls infoCalls =
          (if (stage current).status = "complete" then
            (.complete, calls + 1,
              if (stage current).needsMoreInfo then infoCalls + 1 else infoCalls)
          else if (stage current).status = "failed" then
            (.failed, calls + 1,
              if (stage current).needsMoreInfo then infoCalls + 1 else infoCalls)
          else dialogueLoop stage maxTurns fuel (current + 1) (calls + 1)
            (if (stage current).needsMoreInfo then infoCalls + 1 else infoCalls) :
            LoopOutcome × Nat × Nat) from by
        simp only [dialogueLoop]
        rw [if_pos hle]]
      by_cases hc : (stage current).status = "complete"
      · rw [if_pos hc]
        dsimp only
        omega
      · rw [if_neg hc]
        by_cases hf : (stage current).status = "failed"
        · rw [if_pos hf]
          dsimp only
          omega
        · rw [if_neg hf]
          have := ih (current + 1) (calls + 1)
            (if (stage current).needsMoreInfo then infoCalls + 1 else infoCalls)
          omega
    · rw [show dialogueLoop stage maxTurns (fuel + 1) current calls infoCalls =
          (.exhausted, calls, infoCalls) from by
        simp only [dialogueLoop]
        rw [if_neg hle]]
      dsimp only
      omega

/-- When no turn within the budget reports "complete" or "failed", the loop
runs the full budget and ends `exhausted`. -/
theorem dialogueLoop_exhausts (stage : Nat → StageRes) (maxTurns : Nat)
    (hnc : ∀ n, 1 ≤ n → n ≤ maxTurns →
      (stage n).status ≠ "complete" ∧ (stage n).status ≠ "failed") :
    ∀ (fuel current calls infoCalls : Nat), 1 ≤ current →
      maxTurns + 1 - current ≤ fuel →
      (dialogueLoop stage maxTurns fuel current calls infoCalls).1 =
        LoopOutcome.exhausted ∧
      (dialogueLoop stage maxTurns fuel current calls infoCalls).2.1 =
        calls + (maxTurns + 1 - current) := by
  intro fuel
  induction fuel with
  | zero =>
    intro current calls infoCalls h1 hf
    constructor
    · rfl
    · have : maxTurns + 1 - current = 0 := by omega
      simp [dialogueLoop, this]
  | succ fuel ih =>
    intro current calls infoCalls h1 hf
    by_cases hle : current ≤ maxTurns
    · obtain ⟨hc, hfl⟩ := hnc current h1 hle
      rw [show dialogueLoop stage maxTurns (fuel + 1) current calls infoCalls =
          dialogueLoop stage maxTurns fuel (current + 1) (calls + 1)
            (if (stage current).needsMoreInfo then infoCalls + 1 else infoCalls) from by
        simp only [dialogueLoop]
        rw [if_pos hle, if_neg hc, if_neg hfl]]
      obtain ⟨ho, hcalls⟩ := ih (current + 1) (calls + 1)
        (if (stage current).needsMoreInfo then infoCalls + 1 else infoCalls)
        (by omega) (by omega)
      exact ⟨ho, by omega⟩
    · rw [show dialogueLoop stage maxTurns (fuel + 1) current calls infoCalls =
          (.exhausted, calls, infoCalls) from by
        simp only [dialogueLoop]
        rw [if_neg hle]]
      exact ⟨rfl, by dsimp only; omega⟩

/-- C5: for every run of the dialogue stage machine with bound `max_turns`,
the execution loop calls the executor collaborator at most `max_turns`
times; and when no turn within the budget reports "complete" or "failed",
the run returns (normally — the embedded control flow is a total function
with no exceptional exit) the overall status "partial" after exactly
`max_turns` executor calls. -/
theorem executeGoalIterative_turn_budget (stage : Nat → StageRes)
    (maxTurns : Nat) :
    (executeGoalIterative stage maxTurns).2 ≤ maxTurns ∧
    ((∀ n, 1 ≤ n → n ≤ maxTurns →
        (stage n).status ≠ "complete" ∧ (stage n).status ≠ "failed") →
      (executeGoalIterative stage maxTurns).1 = "partial" ∧
      (executeGoalIterative stage maxTurns).2 = maxTurns) := by
  constructor
  · have := dialogueLoop_calls_le stage maxTurns (maxTurns + 1) 1 0 0
    have h2 : (executeGoalIterative stage maxTurns).2 =
        (dialogueLoop stage maxTurns (maxTurns + 1) 1 0 0).2.1 := rfl
    omega
  · intro hnc
    obtain ⟨ho, hcalls⟩ := dialogueLoop_exhausts stage maxTurns hnc
      (maxTurns + 1) 1 0 0 (by omega) (by omega)
    constructor
    · have h1 : (executeGoalIterative stage maxTurns).1 =
          match (dialogueLoop stage maxTurns (maxTurns + 1) 1 0 0).1 with
          | .complete => "completed"
          | .failed => "failed"
          | .exhausted => "partial" := rfl
      rw [h1, ho]
    · have h2 : (executeGoalIterative stage maxTurns).2 =
          (dialogueLoop stage maxTurns (maxTurns + 1) 1 0 0).2.1 := rfl
      rw [h2, hcalls]
      omega

/-- Witness for `executeGoalIterative_turn_budget`: an executor that keeps
reporting "in_progress" against a budget of two turns. -/
theorem executeGoalIterative_turn_budget_witness :
    (∀ n : Nat, 1 ≤ n → n ≤ 2 →
      ((fun _ : Nat => StageRes.mk "in_progress" false) n).status ≠ "complete" ∧
      ((fun _ : Nat => StageRes.mk "in_progress" false) n).status ≠ "failed") ∧
    ((executeGoalIterative (fun _ => ⟨"in_progress", false⟩) 2).2 ≤ 2 ∧
      ((executeGoalIterative (fun _ => ⟨"in_progress", false⟩) 2).1 = "partial" ∧
        (executeGoalIterative (fun _ => ⟨"in_progress", false⟩) 2).2 = 2)) :=
  ⟨fun _ _ _ => ⟨by show "in_progress" ≠ "complete"; decide,
      by show "in_progress" ≠ "failed"; decide⟩,
    (executeGoalIterative_turn_budget (fun _ => ⟨"in_progress", false⟩) 2).1,
    (executeGoalIterative_turn_budget (fun _ => ⟨"in_progress", false⟩) 2).2
      (fun _ _ _ => ⟨by show "in_progress" ≠ "complete"; decide,
        by show "in_progress" ≠ "failed"; decide⟩)⟩

/-! ## Cycle detection (`chatgpt_planner.py` lines 482-525)

The inner `has_cycle` is a Python function that can return `True`, `False`,
or a list (the cycle path) — `PyRes` mirrors that dynamically typed value
together with Python truthiness. -/

/-- A Python value returned by `has_cycle`: a boolean or a list of task
ids. -/
inductive PyRes where
  | pyBool (b : Bool)
  | pyList (l : List String)
  deriving Repr, DecidableEq

/-- Python truthiness of a `has_cycle` return value: booleans are
themselves, lists are truthy when non-empty. -/
def truthy : PyRes → Bool
  | .pyBool b => b
  | .pyList l => !l.isEmpty

/-- Embeds the `for neighbor in graph.get(node, []):` loop inside
`has_cycle` (chatgpt_planner.py lines 503-510).  `f` is the recursive
`has_cycle` call (closing over the mutated `rec_stack`/`path`); a truthy
recursive result is flattened to the bare boolean `True` by the `return
True` at line 506; a back-edge into `rec_stack` returns the slice
`path[path.index(neighbor):]`.  The `visited` set is threaded; `rec_stack`
and `path` are net-unchanged by falsy sub-calls, so passing the entry values
to later neighbours is faithful. -/
def hasCycleNb (f : String → List String → PyRes × List String)
    (recStack path : List String) :
    List String → List String → PyRes × List String
  | [], visited => (.pyBool false, visited)
  | nb :: rest, visited =>
    if nb ∉ visited then
      let r := f nb visited
      if truthy r.1 then (.pyBool true, r.2)
      else hasCycleNb f recStack path rest r.2
    else if nb ∈ recStack then
      (.pyList (path.drop (path.indexOf nb)), visited)
    else
      hasCycleNb f recStack path rest visited

/-- Embeds `has_cycle` (chatgpt_planner.py lines 498-514): mark the node
visited, push it on the recursion stack and path, walk the neighbours, and
return `False` when no neighbour produced a truthy result (popping the
node — implicit here because the entry `recStack`/`path` values are what
later callers keep using).  `fuel` makes the recursion structural; the
recursion only descends into unvisited nodes, which are marked visited
first, so the caller's fuel of `graph.length + 1` is never exhausted. -/
def hasCycleAux (graph : List (String × List String)) :
    Nat → String → List String → List String → List String →
    PyRes × List String
  | 0, _, visited, _, _ => (.pyBool false, visited)
  | fuel + 1, node, visited, recStack, path =>
    let visited' := visited ++ [node]
    let recStack' := recStack ++ [node]
    let path' := path ++ [node]
    hasCycleNb (fun nb v => hasCycleAux graph fuel nb v recStack' path')
      recStack' path' ((graph.lookup node).getD []) visited'

/-- Embeds the outer `for node in graph:` loop of
`check_circular_dependencies` (chatgpt_planner.py lines 516-525): each
unvisited key starts a fresh DFS with empty recursion stack and path; a
truthy result is returned as `(True, result)`, and exhausting the keys
yields `(False, None)`. -/
def cycleOuter (graph : List (String × List String)) :
    List String → List String → Bool × Option PyRes
  | [], _ => (false, none)
  | n :: rest, visited =>
    if n ∉ visited then
      let r := hasCycleAux graph (graph.length + 1) n visited [] []
      if truthy r.1 then (true, some r.1)
      else cycleOuter graph rest r.2
    else
      cycleOuter graph rest visited

/-- Embeds `PlanValidator.check_circular_dependencies` (chatgpt_planner.py
lines 482-525): build the graph exactly as `_build_dependency_graph` does
(one entry per plan task, unknown keys dropped) and run the DFS over the
keys in plan order. -/
def check_circular_dependencies (tasks : List String)
    (dependencies : List (String × List String)) : Bool × Option PyRes :=
  let graph := tasks.map (fun t => (t, depsOf dependencies t))
  cycleOuter graph tasks []

/-- C7 evaluated on the failing input: for the two-node cycle
`A -> B -> A`, validation does report a cycle, but the diagnostic returned
as `cycle_if_found` is the Python boolean `True` — the nested `has_cycle`
call's list result is flattened by the `return True` at chatgpt_planner.py
line 506 — and not the cycle path `[A, B, A]` promised by the function's
docstring, its `Tuple[bool, Optional[List[str]]]` annotation and the spec
(even the direct-detection branch would return `[A, B]`, without the
closing repetition). -/
theorem check_circular_dependencies_two_cycle :
    check_circular_dependencies ["A", "B"] [("A", ["B"]), ("B", ["A"])] =
      (true, some (PyRes.pyBool true)) ∧
    (check_circular_dependencies ["A", "B"] [("A", ["B"]), ("B", ["A"])]).2 ≠
      some (PyRes.pyList ["A", "B", "A"]) := by
  refine ⟨by decide, by decide⟩

end Orcha
